import Mathlib

/-!
Verification of the kconfig-merge tool (src/kconfig-merge.py).

The tool recursively copies a set of Kconfig files into a mirrored tree under
the output root's parent directory, rewriting every reference directive
(a line matching the Python regex `^source\s*"([^"]*)"`) to a path relative to
the common ancestor directory of all inputs, and writes a root file with a
banner, a mainmenu line and one source line per top-level input.

Shallow embedding conventions:
* An absolute POSIX path is a list of segments (`FPath`); the filesystem root is
  `[]`.  Relative paths (the results of `os.path.relpath`) are also segment
  lists, where a `".."` segment is the literal parent reference and the empty
  list renders as `"."`, exactly as `os.path.relpath` returns `os.curdir`.
* The filesystem is an association list from (normalized) paths to file
  contents plus a list of existing directories.  A file's content is the list
  of chunks written to it; the program only ever writes whole lines, matching
  Python's line iteration.
* The recursive transformer `_parse_kconfig` is embedded with an explicit fuel
  parameter (`parseKconfig`): Python has no recursion bound, so fuel
  exhaustion (`Err.noFuel`) models nontermination / stack exhaustion.
  Recursion is kept structural (fuel, then the line list) so that every
  definition evaluates by `rfl` / `decide`.
* All operations return the state reached so far together with the outcome, so
  partial output written before an exception is observable, as on a real disk.
-/

set_option maxRecDepth 8000
abbrev FPath := List String
/-- Whitespace characters matched by the Python regex class in `\s*`
(restricted to the ASCII range; the inputs of interest are ASCII). -/
def isPySpace (c : Char) : Bool :=
  c = ' ' || c = '\t' || c = '\n' || c = '\r' || c = '\x0b' || c = '\x0c'
/-- Split a raw path string on the separator, like `str.split('/')` as used by
`posixpath`; keeps empty segments and dot segments (they are resolved later by
`normPath`, as the OS resolves them at file access). -/
def splitSegsAux : List Char → List Char → List String
  | [], acc => [String.mk acc.reverse]
  | '/' :: cs, acc => String.mk acc.reverse :: splitSegsAux cs []
  | c :: cs, acc => splitSegsAux cs (c :: acc)
def splitSegs (s : String) : List String :=
  splitSegsAux s.data []
/-- Join segments with the separator, like `'/'.join`. -/
def joinSegs : List String → String
  | [] => ""
  | [s] => s
  | s :: rest => s ++ "/" ++ joinSegs rest
/-- Render a relative segment list as `os.path.relpath` renders its result:
the empty result is `os.curdir` (`"."`). -/
def renderRel (r : List String) : String :=
  if r = [] then "." else joinSegs r
/-- Render an absolute path. -/
def renderPath (p : FPath) : String :=
  "/" ++ joinSegs p
/-- FPath normalization as performed by `posixpath.normpath` / `abspath` on an
absolute path: empty and `"."` segments are dropped, `".."` removes the
previous segment (and is absorbed at the root, as `'/..' == '/'`). -/
def normPath (p : FPath) : FPath :=
  p.foldl (fun acc s =>
    if s = "" || s = "." then acc
    else if s = ".." then acc.dropLast
    else acc ++ [s]) []
/-- `os.path.dirname` on a segment path: drop the last segment. -/
def dirname (p : FPath) : FPath :=
  p.dropLast
/-- `os.path.join(dir, s)` for a raw captured string `s`: if `s` is absolute it
replaces `dir`, otherwise it is appended; `"."`/`".."` segments stay literal
(they are resolved only at file access / by `relpath`), as in Python. -/
def joinPath (dir : FPath) (s : String) : FPath :=
  match s.data with
  | '/' :: _ => splitSegs s
  | _ => dir ++ splitSegs s
/-- Length of the longest common segment prefix of two paths
(`genericpath.commonprefix` on split paths). -/
def commonPrefixLen : FPath → FPath → Nat
  | a :: as, b :: bs => if a = b then commonPrefixLen as bs + 1 else 0
  | _, _ => 0
/-- `os.path.relpath(p, base)` on absolute paths: both sides are normalized
(`abspath` calls `normpath`), then the result is `..` segments up to the
common prefix followed by the remainder of `p`. -/
def relpath (p base : FPath) : List String :=
  let pn := normPath p
  let bn := normPath base
  let i := commonPrefixLen pn bn
  List.replicate (bn.length - i) ".." ++ pn.drop i
/-- Segment cleaning done by `posixpath.commonpath`: empty and curdir segments
are dropped (but `".."` is kept). -/
def cleanSegs (p : FPath) : FPath :=
  p.filter (fun s => s ≠ "" && s ≠ ".")
/-- Longest common segment prefix of two cleaned paths. -/
def commonStem : FPath → FPath → FPath
  | a :: as, b :: bs => if a = b then a :: commonStem as bs else []
  | _, _ => []
inductive Err where
  | noFuel
  | notFound (p : FPath)
  | isADirectory (p : FPath)
  | fileExists (p : FPath)
  | emptySources
  | invalidInput (msg : String)
deriving DecidableEq
instance {ε α : Type _} [DecidableEq ε] [DecidableEq α] : DecidableEq (Except ε α) := fun a b =>
  match a, b with
  | .error e, .error f =>
    if h : e = f then .isTrue (by rw [h]) else .isFalse (by intro hh; cases hh; exact h rfl)
  | .ok x, .ok y =>
    if h : x = y then .isTrue (by rw [h]) else .isFalse (by intro hh; cases hh; exact h rfl)
  | .error _, .ok _ => .isFalse (by intro hh; cases hh)
  | .ok _, .error _ => .isFalse (by intro hh; cases hh)
/-- `os.path.commonpath`: errors on an empty sequence (`ValueError`), otherwise
the longest common segment prefix of all the cleaned paths.  (CPython computes
this as the common prefix of the lexicographic min and max of the split paths,
which yields the same list.) -/
def commonpath : List FPath → Except Err FPath
  | [] => .error .emptySources
  | p :: rest => .ok (rest.foldl (fun acc q => commonStem acc (cleanSegs q)) (cleanSegs p))
/-- The filesystem: files as an association list from normalized absolute path
to content (the list of written chunks / read lines), plus the set of existing
directories. -/
structure FS where
  files : List (FPath × List String)
  dirs : List FPath
deriving DecidableEq
def updateAssoc : List (FPath × List String) → FPath → List String → List (FPath × List String)
  | [], k, c => [(k, c)]
  | e :: rest, k, c => if e.1 = k then (k, c) :: rest else e :: updateAssoc rest k c
def filesLookup (fs : FS) (p : FPath) : Option (List String) :=
  (fs.files.find? (fun e => e.1 = normPath p)).map (fun e => e.2)
def setFile (fs : FS) (p : FPath) (c : List String) : FS :=
  { fs with files := updateAssoc fs.files (normPath p) c }
/-- Append one written chunk to an (already opened) destination file. -/
def appendChunk (fs : FS) (p : FPath) (chunk : String) : FS :=
  match filesLookup fs p with
  | some c => setFile fs p (c ++ [chunk])
  | none => setFile fs p [chunk]
def isDir (fs : FS) (p : FPath) : Bool :=
  fs.dirs.contains (normPath p)
/-- `os.makedirs(p, exist_ok=True)`: idempotent directory creation; raises
`FileExistsError` if a regular file occupies the target path. -/
def makedirs (fs : FS) (p : FPath) : Except Err FS :=
  if (filesLookup fs p).isSome then .error (.fileExists p)
  else .ok { fs with dirs := normPath p :: fs.dirs }
/-- `open(p, 'r')` followed by full line iteration: fails with
`IsADirectoryError` on a directory and `FileNotFoundError` on a missing file. -/
def readFile (fs : FS) (p : FPath) : Except Err (List String) :=
  if isDir fs p then .error (.isADirectory p)
  else
    match filesLookup fs p with
    | some c => .ok c
    | none => .error (.notFound p)
/-- `open(p, 'w')`: fails with `IsADirectoryError` on a directory, otherwise
truncates (creates) the file. -/
def openWriteTrunc (fs : FS) (p : FPath) : Except Err FS :=
  if isDir fs p then .error (.isADirectory p)
  else .ok (setFile fs p [])
/-- `os.path.exists`. -/
def pathExists (fs : FS) (p : FPath) : Bool :=
  (filesLookup fs p).isSome || isDir fs p
/-- `os.path.isfile`. -/
def isRegularFile (fs : FS) (p : FPath) : Bool :=
  (filesLookup fs p).isSome
/-- The immutable parameters of `KconfigMerge` set in `__init__`
(self.title, self.kconfig_root, self.parent_dir, self.overwrite,
self.headers). -/
structure Cfg where
  title : String
  kconfig_root : FPath
  parent_dir : FPath
  overwrite : String
  headers : List String
deriving DecidableEq
/-- The mutable state of a run: the filesystem, `self.common_dir` and the
record list `self.kconfig_sources`.  The Python code appends the element
`{kconfig_source, kconfig_parent_relpath}` (an unordered two-element set) to a
list; each appended record is modelled as the pair of the two paths, which is
faithful for everything the program does with the list (it only takes its
length in `summary`). -/
structure St where
  fs : FS
  common_dir : FPath
  kconfig_sources : List (FPath × FPath)
deriving DecidableEq
/-- `KconfigMerge.__init__`: stores the parameters (headers is the literal
one-element banner list) and pre-creates the parent directory of the output
root. -/
def kconfigMergeInit (title : String) (kconfig_root : FPath) (overwrite : String)
    (fs : FS) : Except Err (Cfg × St) :=
  match makedirs fs (dirname kconfig_root) with
  | .error e => .error e
  | .ok fs1 =>
    .ok ({ title := title, kconfig_root := kconfig_root,
           parent_dir := dirname kconfig_root, overwrite := overwrite,
           headers := ["# AUTOGENERATED FILE. DO NOT MODIFY"] },
         { fs := fs1, common_dir := [], kconfig_sources := [] })
/-- Strip a literal character prefix: `stripLit lit l = some rest` iff
`l = lit ++ rest`. -/
def stripLit : List Char → List Char → Option (List Char)
  | [], cs => some cs
  | l :: ls, c :: cs => if c = l then stripLit ls cs else none
  | _ :: _, [] => none
/-- The part of the regex after the keyword: `\s*"([^"]*)"` (not anchored at
the end of the line: any trailing characters are ignored). -/
def matchSourceAux (cs : List Char) : Option String :=
  match cs.dropWhile isPySpace with
  | '"' :: r1 =>
    match r1.dropWhile (fun c => c ≠ '"') with
    | '"' :: _ => some (String.mk (r1.takeWhile (fun c => c ≠ '"')))
    | _ => none
  | _ => none
/-- `re.match(r"^source\s*\"([^\"]*)\"", line)`: the keyword `source` must sit
at the very start of the line (`re.match` anchors at position 0 and the
pattern has no leading `\s*`), followed by optional whitespace, an opening
quote, the captured (possibly empty) quote-free path and a closing quote. -/
def matchSource (line : String) : Option String :=
  match stripLit "source".data line.data with
  | some rest => matchSourceAux rest
  | none => none
/-- The loop body of `_parse_kconfig` over the lines of the opened source
file.  `step` is the recursive call to `_parse_kconfig` (passed explicitly so
that the recursion is structural in the fuel).  A line matching the directive
pattern with a non-empty captured group recurses into the referenced file
(captured path resolved against the directory of the current source file) and
writes the rewritten directive; every other line is written to the destination
verbatim.  An exception from the recursive call propagates immediately. -/
def processLines (step : St → FPath → St × Except Err (List String))
    (dest srcDir : FPath) : St → List String → St × Except Err Unit
  | st, [] => (st, .ok ())
  | st, line :: rest =>
    match matchSource line with
    | some cap =>
      if cap ≠ "" then
        match step st (joinPath srcDir cap) with
        | (st1, .error e) => (st1, .error e)
        | (st1, .ok relSegs) =>
          let st2 : St :=
            { st1 with fs := appendChunk st1.fs dest ("source \"" ++ renderRel relSegs ++ "\"\n") }
          processLines step dest srcDir st2 rest
      else
        let st1 : St := { st with fs := appendChunk st.fs dest line }
        processLines step dest srcDir st1 rest
    | none =>
      let st1 : St := { st with fs := appendChunk st.fs dest line }
      processLines step dest srcDir st1 rest
/-- `KconfigMerge._parse_kconfig(kconfig_source)`:
1. the path relative to the common dir (`_get_source_relpath`) is the return
   value;
2. the destination is that path joined under the parent dir of the output
   root, whose directory is created (`_get_parent_relpath`);
3. the pair is recorded in `self.kconfig_sources` - before the file content is
   processed;
4. the source is opened for reading and the destination for writing (the read
   handle is opened first, so a missing source fails before the destination is
   truncated), then each line is processed by the loop above.
Fuel models the unbounded Python recursion; fuel 0 is exhaustion. -/
def parseKconfig (cfg : Cfg) : Nat → St → FPath → St × Except Err (List String)
  | 0, st, _ => (st, .error .noFuel)
  | fuel + 1, st, kconfig_source =>
    let rel := relpath kconfig_source st.common_dir
    let dest := cfg.parent_dir ++ rel
    match makedirs st.fs (dirname dest) with
    | .error e => (st, .error e)
    | .ok fs1 =>
      let stA : St := { st with fs := fs1 }
      let stB : St := { stA with kconfig_sources := stA.kconfig_sources ++ [(kconfig_source, dest)] }
      match readFile stB.fs kconfig_source with
      | .error e => (stB, .error e)
      | .ok lines =>
        match openWriteTrunc stB.fs dest with
        | .error e => (stB, .error e)
        | .ok fs2 =>
          let stC : St := { stB with fs := fs2 }
          match processLines (parseKconfig cfg fuel) dest (dirname kconfig_source) stC lines with
          | (st1, .error e) => (st1, .error e)
          | (st1, .ok ()) => (st1, .ok rel)
/-- The loop over the top-level sources in `import_sources`: parse each file,
then write its `source` line to the root file. -/
def importRootLoop (cfg : Cfg) (fuel : Nat) : St → List FPath → St × Except Err Unit
  | st, [] => (st, .ok ())
  | st, source :: rest =>
    match parseKconfig cfg fuel st source with
    | (st1, .error e) => (st1, .error e)
    | (st1, .ok rel) =>
      let st2 : St :=
        { st1 with fs := appendChunk st1.fs cfg.kconfig_root ("source \"" ++ renderRel rel ++ "\"\n") }
      importRootLoop cfg fuel st2 rest
/-- `KconfigMerge.import_sources(sources)`: compute the common dir, open the
root file for writing, write the header lines and the mainmenu line, then the
loop above. -/
def importSources (cfg : Cfg) (fuel : Nat) (st : St) (sources : List FPath) :
    St × Except Err Unit :=
  match commonpath sources with
  | .error e => (st, .error e)
  | .ok cd =>
    let st1 : St := { st with common_dir := cd }
    match openWriteTrunc st1.fs cfg.kconfig_root with
    | .error e => (st1, .error e)
    | .ok fs1 =>
      let st2 : St := { st1 with fs := fs1 }
      let st3 : St :=
        { st2 with fs := cfg.headers.foldl (fun f h => appendChunk f cfg.kconfig_root (h ++ "\n")) st2.fs }
      let st4 : St :=
        { st3 with fs := appendChunk st3.fs cfg.kconfig_root ("mainmenu \"" ++ cfg.title ++ " Configuration\"\n") }
      importRootLoop cfg fuel st4 sources
/-- `KconfigMerge.summary` logs `len(self.kconfig_sources)`: the reported
count. -/
def summaryCount (st : St) : Nat :=
  st.kconfig_sources.length
/-- The input-validation loop of `main`: every source must exist and be a
regular file, otherwise an exception naming the path is raised.  (The paths
are modelled as already absolute; `main` converts relative paths with
`os.path.abspath` before these checks.) -/
def validateSources (fs : FS) : List FPath → Except String (List FPath)
  | [] => .ok []
  | source :: rest =>
    if pathExists fs source = false then
      .error ("Could not find file: " ++ renderPath source)
    else if isRegularFile fs source = false then
      .error ("Not a file: " ++ renderPath source)
    else
      match validateSources fs rest with
      | .error e => .error e
      | .ok r => .ok (source :: r)
/-- `main` after argument parsing: validate all sources (before anything is
written), construct `KconfigMerge` (which pre-creates the parent directory)
and run `import_sources`.  The result carries the final state, whose `fs`
field is the on-disk outcome; on a validation error the disk is the untouched
input filesystem. -/
def mainModel (fuel : Nat) (fs : FS) (title : String) (kconfig : FPath)
    (sources : List FPath) : St × Except Err Unit :=
  match validateSources fs sources with
  | .error msg => ({ fs := fs, common_dir := [], kconfig_sources := [] }, .error (.invalidInput msg))
  | .ok srcs =>
    match kconfigMergeInit title kconfig "always" fs with
    | .error e => ({ fs := fs, common_dir := [], kconfig_sources := [] }, .error e)
    | .ok (cfg, st) => importSources cfg fuel st srcs
/-- The pure per-line description of the transformation performed by the loop
of `_parse_kconfig`: a directive line with a non-empty captured path becomes
the rewritten directive (relative to the common dir), every other line is kept
verbatim. -/
def rewriteLine (common srcDir : FPath) (line : String) : String :=
  match matchSource line with
  | some cap =>
    if cap ≠ "" then
      "source \"" ++ renderRel (relpath (joinPath srcDir cap) common) ++ "\"\n"
    else line
  | none => line
/-- The referenced absolute path of a directive line, if any. -/
def lineRef (srcDir : FPath) (line : String) : Option FPath :=
  match matchSource line with
  | some cap => if cap ≠ "" then some (joinPath srcDir cap) else none
  | none => none
/-- All references of a file content: the edges of the source-reference
graph. -/
def refsOfLines (srcDir : FPath) (lines : List String) : List FPath :=
  lines.filterMap (lineRef srcDir)

def ParseSpec (cfg : Cfg) (st st' : St) : Prop :=
  st'.common_dir = st.common_dir ∧
  ∃ new, st'.kconfig_sources = st.kconfig_sources ++ new ∧
    (∀ e ∈ new, e.2 = cfg.parent_dir ++ relpath e.1 st.common_dir) ∧
    (∀ p, (∀ e ∈ new, normPath e.2 ≠ normPath p) → filesLookup st'.fs p = filesLookup st.fs p)

def ProcSpec (cfg : Cfg) (dest : FPath) (st st' : St) : Prop :=
  st'.common_dir = st.common_dir ∧
  ∃ new, st'.kconfig_sources = st.kconfig_sources ++ new ∧
    (∀ e ∈ new, e.2 = cfg.parent_dir ++ relpath e.1 st.common_dir) ∧
    (∀ p, normPath dest ≠ normPath p → (∀ e ∈ new, normPath e.2 ≠ normPath p) →
      filesLookup st'.fs p = filesLookup st.fs p)

/-- Modelled from the claim C2's wording (not from the source): the pattern as
the claim describes it, with optional leading whitespace permitted before the
keyword `source`.  The source regex `^source\s*"([^"]*)"` has no leading
`\s*`, so this differs from `matchSource`. -/
def claimedDirectiveMatch (line : String) : Option String :=
  match stripLit "source".data (line.data.dropWhile isPySpace) with
  | some rest => matchSourceAux rest
  | none => none

def cfgCex : Cfg :=
  ⟨"T", ["out", "K"], ["out"], "always", ["# AUTOGENERATED FILE. DO NOT MODIFY"]⟩

def stCex : St := ⟨⟨[], []⟩, ["a"], []⟩

def fsC1 : FS :=
  ⟨[(["a", "b", "x.kconfig"], ["config FOO\n"]),
    (["a", "c", "y.kconfig"], ["config BAR\n"])], []⟩

def cfgC3 : Cfg :=
  ⟨"T", ["out", "Kconfig"], ["out"], "always", ["# AUTOGENERATED FILE. DO NOT MODIFY"]⟩

def stC3 : St :=
  ⟨⟨[(["a", "x.k"], ["source \"d/y.k\"\n", "# comment\n", "source \"d/z.k\"\n"]),
     (["a", "d", "y.k"], ["config Y\n"]),
     (["a", "d", "z.k"], ["config Z\n"])], []⟩, ["a"], []⟩

def stC7 : St :=
  ⟨⟨[(["a", "x.k"], ["source \"z.k\"\n", "source \"z.k\"\n"]),
     (["a", "z.k"], ["config Z\n"])], []⟩, ["a"],
    [(["a", "x.k"], ["out", "x.k"])]⟩

/-- `main`'s object construction plus import, with the overwrite policy
exposed as a parameter: `KconfigMerge.__init__` accepts and stores it (the CLI
always passes the default `'always'`). -/
def importRun (title : String) (root : FPath) (overwrite : String) (fs : FS)
    (fuel : Nat) (sources : List FPath) : Except Err (St × Except Err Unit) :=
  match kconfigMergeInit title root overwrite fs with
  | .error e => .error e
  | .ok (cfg, st) => .ok (importSources cfg fuel st sources)

/-- The path holds a regular file in the given (initial) filesystem. -/
def DomP (fs0 : FS) (p : FPath) : Prop := (filesLookup fs0 p).isSome = true

/-- Run invariant: the common dir is fixed and every file of the initial
filesystem still has its initial content (writes only touch output
locations, which by hypothesis do not alias the sources). -/
def InvP (fs0 : FS) (common : FPath) (st : St) : Prop :=
  st.common_dir = common ∧ ∀ p, DomP fs0 p → filesLookup st.fs p = filesLookup fs0 p

def fsC10 : FS :=
  ⟨[(["a", "x.k"], ["source \"y.k\"\n"]), (["a", "y.k"], ["config Y\n"])], []⟩
/-! ## Filesystem lemmas -/

theorem find?_updateAssoc_eq (l : List (FPath × List String)) (k : FPath) (c : List String) :
    (updateAssoc l k c).find? (fun e => e.1 = k) = some (k, c) := by
  induction l with
  | nil => simp [updateAssoc]
  | cons e rest ih =>
    by_cases h : e.1 = k
    · simp [updateAssoc, h]
    · simp [updateAssoc, h, ih]
theorem find?_updateAssoc_ne (l : List (FPath × List String)) (k : FPath) (c : List String)
    (k' : FPath) (h : k' ≠ k) :
    (updateAssoc l k c).find? (fun e => e.1 = k') = l.find? (fun e => e.1 = k') := by
  induction l with
  | nil => simp [updateAssoc, Ne.symm h]
  | cons e rest ih =>
    by_cases he : e.1 = k
    · simp [updateAssoc, he, Ne.symm h, List.find?_cons]
    · simp only [updateAssoc, if_neg he, List.find?_cons]
      cases hc : (decide (e.1 = k')) <;> simp [hc, ih]
theorem filesLookup_setFile (fs : FS) (p : FPath) (c : List String) (q : FPath) :
    filesLookup (setFile fs p c) q
      = if normPath q = normPath p then some c else filesLookup fs q := by
  by_cases h : normPath q = normPath p
  · simp only [filesLookup, setFile, h, if_pos]
    rw [find?_updateAssoc_eq]
    rfl
  · simp only [filesLookup, setFile, if_neg h]
    rw [find?_updateAssoc_ne _ _ _ _ h]
theorem filesLookup_appendChunk_ne (fs : FS) (p : FPath) (c : String) (q : FPath)
    (h : normPath q ≠ normPath p) :
    filesLookup (appendChunk fs p c) q = filesLookup fs q := by
  unfold appendChunk
  cases filesLookup fs p <;> simp [filesLookup_setFile, h]
theorem filesLookup_appendChunk_self (fs : FS) (p : FPath) (c : String) (cur : List String)
    (h : filesLookup fs p = some cur) :
    filesLookup (appendChunk fs p c) p = some (cur ++ [c]) := by
  unfold appendChunk
  rw [h]
  simp [filesLookup_setFile]
theorem filesLookup_makedirs (fs : FS) (p : FPath) (fs' : FS)
    (h : makedirs fs p = .ok fs') (q : FPath) :
    filesLookup fs' q = filesLookup fs q := by
  unfold makedirs at h
  split at h
  · cases h
  · cases h
    rfl
theorem openWriteTrunc_ok (fs : FS) (p : FPath) (fs' : FS)
    (h : openWriteTrunc fs p = .ok fs') : fs' = setFile fs p [] := by
  unfold openWriteTrunc at h
  split at h
  · cases h
  · cases h
    rfl
theorem readFile_ok (fs : FS) (p : FPath) (c : List String)
    (h : readFile fs p = .ok c) : filesLookup fs p = some c := by
  unfold readFile at h
  split at h
  · cases h
  · split at h
    · cases h
      assumption
    · cases h
/-! ## State-delta specification of the recursive transformer

Every call of `_parse_kconfig` leaves `common_dir` unchanged, appends records
(one per invocation, each recording the destination mapped under the parent
dir), and modifies no file other than the recorded destinations. -/

theorem ParseSpec_refl (cfg : Cfg) (st : St) : ParseSpec cfg st st :=
  ⟨rfl, [], by simp, by simp, fun _ _ => rfl⟩
theorem ProcSpec_refl (cfg : Cfg) (dest : FPath) (st : St) : ProcSpec cfg dest st st :=
  ⟨rfl, [], by simp, by simp, fun _ _ _ => rfl⟩
theorem ParseSpec_toProc (cfg : Cfg) (dest : FPath) (st st' : St)
    (h : ParseSpec cfg st st') : ProcSpec cfg dest st st' := by
  obtain ⟨hc, new, hr, hd, hp⟩ := h
  exact ⟨hc, new, hr, hd, fun p _ hne => hp p hne⟩
theorem ProcSpec_trans (cfg : Cfg) (dest : FPath) (st st1 st2 : St)
    (h1 : ProcSpec cfg dest st st1) (h2 : ProcSpec cfg dest st1 st2) :
    ProcSpec cfg dest st st2 := by
  obtain ⟨hc1, new1, hr1, hd1, hp1⟩ := h1
  obtain ⟨hc2, new2, hr2, hd2, hp2⟩ := h2
  refine ⟨hc2.trans hc1, new1 ++ new2, ?_, ?_, ?_⟩
  · rw [hr2, hr1, List.append_assoc]
  · intro e he
    rcases List.mem_append.mp he with h | h
    · exact hd1 e h
    · rw [hd2 e h, hc1]
  · intro p hdp hne
    rw [hp2 p hdp (fun e he => hne e (List.mem_append.mpr (Or.inr he))),
      hp1 p hdp (fun e he => hne e (List.mem_append.mpr (Or.inl he)))]
theorem ProcSpec_append (cfg : Cfg) (dest : FPath) (st : St) (chunk : String) :
    ProcSpec cfg dest st { st with fs := appendChunk st.fs dest chunk } := by
  refine ⟨rfl, [], by simp, by simp, ?_⟩
  intro p hdp _
  exact filesLookup_appendChunk_ne _ _ _ _ (fun h => hdp h.symm)
theorem processLines_spec (cfg : Cfg) (fuel : Nat) (dest srcDir : FPath)
    (IH : ∀ st src, ParseSpec cfg st (parseKconfig cfg fuel st src).1) :
    ∀ (lines : List String) (st : St),
      ProcSpec cfg dest st (processLines (parseKconfig cfg fuel) dest srcDir st lines).1 := by
  intro lines
  induction lines with
  | nil => intro st; exact ProcSpec_refl cfg dest st
  | cons line rest ih =>
    intro st
    simp only [processLines]
    cases hm : matchSource line with
    | none =>
      exact ProcSpec_trans cfg dest _ _ _ (ProcSpec_append cfg dest st line) (ih _)
    | some cap =>
      by_cases hcap : cap ≠ ""
      · simp only [if_pos hcap]
        cases hp : parseKconfig cfg fuel st (joinPath srcDir cap) with
        | mk st1 r =>
          have hps : ProcSpec cfg dest st st1 := by
            have := IH st (joinPath srcDir cap)
            rw [hp] at this
            exact ParseSpec_toProc cfg dest st st1 this
          cases r with
          | error e => exact hps
          | ok relSegs =>
            exact ProcSpec_trans cfg dest _ _ _
              (ProcSpec_trans cfg dest _ _ _ hps (ProcSpec_append cfg dest st1 _)) (ih _)
      · simp only [if_neg hcap]
        exact ProcSpec_trans cfg dest _ _ _ (ProcSpec_append cfg dest st line) (ih _)
theorem parseKconfig_spec (cfg : Cfg) :
    ∀ (fuel : Nat) (st : St) (src : FPath),
      ParseSpec cfg st (parseKconfig cfg fuel st src).1 := by
  intro fuel
  induction fuel with
  | zero => intro st src; exact ParseSpec_refl cfg st
  | succ fuel ih =>
    intro st src
    simp only [parseKconfig]
    split
    · exact ParseSpec_refl cfg st
    · rename_i fs1 hmk
      have hfs1 : ∀ q, filesLookup fs1 q = filesLookup st.fs q :=
        filesLookup_makedirs st.fs _ fs1 hmk
      have hB : ParseSpec cfg st
          ⟨fs1, st.common_dir,
            st.kconfig_sources ++ [(src, cfg.parent_dir ++ relpath src st.common_dir)]⟩ := by
        refine ⟨rfl, [(src, cfg.parent_dir ++ relpath src st.common_dir)], rfl, by simp, ?_⟩
        intro p _
        exact hfs1 p
      split
      · exact hB
      · rename_i lines hrd
        split
        · exact hB
        · rename_i fs2 hw
          have hfs2 : fs2 = setFile fs1 (cfg.parent_dir ++ relpath src st.common_dir) [] :=
            openWriteTrunc_ok fs1 _ fs2 hw
          have hCB : ProcSpec cfg (cfg.parent_dir ++ relpath src st.common_dir)
              ⟨fs1, st.common_dir,
                st.kconfig_sources ++ [(src, cfg.parent_dir ++ relpath src st.common_dir)]⟩
              ⟨fs2, st.common_dir,
                st.kconfig_sources ++ [(src, cfg.parent_dir ++ relpath src st.common_dir)]⟩ := by
            refine ⟨rfl, [], by simp, by simp, ?_⟩
            intro p hdp _
            rw [hfs2]
            show filesLookup (setFile fs1 _ []) p = filesLookup fs1 p
            rw [filesLookup_setFile, if_neg (fun h => hdp h.symm)]
          have hproc := processLines_spec cfg fuel (cfg.parent_dir ++ relpath src st.common_dir)
            (dirname src) ih lines
            ⟨fs2, st.common_dir,
              st.kconfig_sources ++ [(src, cfg.parent_dir ++ relpath src st.common_dir)]⟩
          have hBtoEnd := ProcSpec_trans cfg (cfg.parent_dir ++ relpath src st.common_dir)
            _ _ _ hCB hproc
          have hres : ∀ st1 r, processLines (parseKconfig cfg fuel)
              (cfg.parent_dir ++ relpath src st.common_dir) (dirname src)
              ⟨fs2, st.common_dir,
                st.kconfig_sources ++ [(src, cfg.parent_dir ++ relpath src st.common_dir)]⟩
              lines = (st1, r) → ParseSpec cfg st st1 := by
            intro st1 r hpl
            rw [hpl] at hBtoEnd
            obtain ⟨hc2, new2, hr2, hd2, hp2⟩ := hBtoEnd
            refine ⟨hc2, (src, cfg.parent_dir ++ relpath src st.common_dir) :: new2, ?_, ?_, ?_⟩
            · rw [hr2]
              simp
            · intro e he
              rcases List.mem_cons.mp he with h | h
              · rw [h]
              · exact hd2 e h
            · intro p hne
              have hdp : normPath (cfg.parent_dir ++ relpath src st.common_dir) ≠ normPath p :=
                hne (src, cfg.parent_dir ++ relpath src st.common_dir) (List.mem_cons_self _ _)
              rw [hp2 p hdp (fun e he => hne e (List.mem_cons_of_mem _ he))]
              exact hfs1 p
          split
          · rename_i a b c
            exact hres a (.error b) c
          · rename_i a b c
            exact hres b (.ok ()) c
/-! ## Content of the transformed file -/

theorem parseKconfig_rel (cfg : Cfg) (fuel : Nat) (st : St) (src : FPath) (st1 : St)
    (rel : List String) (h : parseKconfig cfg fuel st src = (st1, .ok rel)) :
    rel = relpath src st.common_dir := by
  cases fuel with
  | zero => simp [parseKconfig] at h
  | succ fuel =>
    simp only [parseKconfig] at h
    split at h
    · simp at h
    · split at h
      · simp at h
      · split at h
        · simp at h
        · split at h
          · simp at h
          · simp only [Prod.mk.injEq, Except.ok.injEq] at h
            exact h.2.symm
theorem records_drop_of_append (a l : List (FPath × FPath)) (b : List (FPath × FPath))
    (h : b = a ++ l) : b.drop a.length = l := by
  rw [h]
  exact List.drop_left a l
theorem processLines_content (cfg : Cfg) (fuel : Nat) (dest srcDir : FPath) :
    ∀ (lines : List String) (st : St) (cur : List String) (st1 : St),
      processLines (parseKconfig cfg fuel) dest srcDir st lines = (st1, .ok ()) →
      filesLookup st.fs dest = some cur →
      (∀ e ∈ st1.kconfig_sources.drop st.kconfig_sources.length, normPath e.2 ≠ normPath dest) →
      st1.common_dir = st.common_dir ∧
      filesLookup st1.fs dest = some (cur ++ lines.map (rewriteLine st.common_dir srcDir)) := by
  intro lines
  induction lines with
  | nil =>
    intro st cur st1 h hcur _
    simp only [processLines, Prod.mk.injEq] at h
    rw [← h.1]
    exact ⟨rfl, by simpa using hcur⟩
  | cons line rest ih =>
    intro st cur st1 h hcur hsep
    simp only [processLines] at h
    split at h
    · rename_i cap hm
      split at h
      · rename_i hcap
        -- directive line: recursive call then rewritten chunk
        split at h
        · simp at h
        · rename_i st2 relSegs hp
          have hrel : relSegs = relpath (joinPath srcDir cap) st.common_dir :=
            parseKconfig_rel cfg fuel st (joinPath srcDir cap) st2 relSegs hp
          have hspec : ParseSpec cfg st st2 := by
            have := parseKconfig_spec cfg fuel st (joinPath srcDir cap)
            rw [hp] at this
            exact this
          obtain ⟨hc2, new2, hr2, _, hp2⟩ := hspec
          have hproc3 := processLines_spec cfg fuel dest srcDir
            (fun st src => parseKconfig_spec cfg fuel st src) rest
            ⟨appendChunk st2.fs dest ("source \"" ++ renderRel relSegs ++ "\"\n"),
              st2.common_dir, st2.kconfig_sources⟩
          rw [h] at hproc3
          obtain ⟨hc3, new3, hr3, _, _⟩ := hproc3
          have hrecs : st1.kconfig_sources = st.kconfig_sources ++ (new2 ++ new3) := by
            have : st1.kconfig_sources = st2.kconfig_sources ++ new3 := hr3
            rw [this, hr2, List.append_assoc]
          have hdropall := records_drop_of_append st.kconfig_sources (new2 ++ new3)
            st1.kconfig_sources hrecs
          have hdrop3 : st1.kconfig_sources.drop st2.kconfig_sources.length = new3 :=
            records_drop_of_append st2.kconfig_sources new3 st1.kconfig_sources hr3
          have hne2 : ∀ e ∈ new2, normPath e.2 ≠ normPath dest := by
            intro e he
            exact hsep e (by rw [hdropall]; exact List.mem_append.mpr (Or.inl he))
          have hcur2 : filesLookup st2.fs dest = some cur := by
            rw [hp2 dest hne2]
            exact hcur
          have hcur3 : filesLookup (appendChunk st2.fs dest
              ("source \"" ++ renderRel relSegs ++ "\"\n")) dest
              = some (cur ++ ["source \"" ++ renderRel relSegs ++ "\"\n"]) :=
            filesLookup_appendChunk_self st2.fs dest _ cur hcur2
          have hihres := ih ⟨appendChunk st2.fs dest ("source \"" ++ renderRel relSegs ++ "\"\n"),
              st2.common_dir, st2.kconfig_sources⟩
            (cur ++ ["source \"" ++ renderRel relSegs ++ "\"\n"]) st1 h hcur3
            (by
              intro e he
              have he3 : e ∈ new3 := by
                rw [← hdrop3]
                exact he
              exact hsep e (by rw [hdropall]; exact List.mem_append.mpr (Or.inr he3)))
          have hline : rewriteLine st.common_dir srcDir line
              = "source \"" ++ renderRel relSegs ++ "\"\n" := by
            rw [hrel]
            simp [rewriteLine, hm, hcap]
          refine ⟨hihres.1.trans hc2, ?_⟩
          rw [hihres.2]
          rw [List.map_cons, hline, show (⟨appendChunk st2.fs dest
              ("source \"" ++ renderRel relSegs ++ "\"\n"),
              st2.common_dir, st2.kconfig_sources⟩ : St).common_dir = st.common_dir from hc2]
          simp
      · rename_i hcap
        -- matched but empty capture: verbatim passthrough
        have hcap' : cap = "" := not_not.mp hcap
        have hcur1 : filesLookup (appendChunk st.fs dest line) dest = some (cur ++ [line]) :=
          filesLookup_appendChunk_self st.fs dest line cur hcur
        have hihres := ih ⟨appendChunk st.fs dest line, st.common_dir, st.kconfig_sources⟩
          (cur ++ [line]) st1 h hcur1 hsep
        have hline : rewriteLine st.common_dir srcDir line = line := by
          simp [rewriteLine, hm, hcap']
        refine ⟨hihres.1, ?_⟩
        rw [hihres.2, List.map_cons, hline]
        simp
    · rename_i hm
      -- no match: verbatim passthrough
      have hcur1 : filesLookup (appendChunk st.fs dest line) dest = some (cur ++ [line]) :=
        filesLookup_appendChunk_self st.fs dest line cur hcur
      have hihres := ih ⟨appendChunk st.fs dest line, st.common_dir, st.kconfig_sources⟩
        (cur ++ [line]) st1 h hcur1 hsep
      have hline : rewriteLine st.common_dir srcDir line = line := by
        simp [rewriteLine, hm]
      refine ⟨hihres.1, ?_⟩
      rw [hihres.2, List.map_cons, hline]
      simp
theorem parseKconfig_content (cfg : Cfg) (fuel : Nat) (st : St) (src : FPath)
    (st1 : St) (rel : List String) (lines : List String)
    (hok : parseKconfig cfg (fuel + 1) st src = (st1, .ok rel))
    (hread : filesLookup st.fs src = some lines)
    (hsep : ∀ e ∈ st1.kconfig_sources.drop (st.kconfig_sources.length + 1),
      normPath e.2 ≠ normPath (cfg.parent_dir ++ relpath src st.common_dir)) :
    st1.common_dir = st.common_dir ∧
    filesLookup st1.fs (cfg.parent_dir ++ relpath src st.common_dir)
      = some (lines.map (rewriteLine st.common_dir (dirname src))) := by
  simp only [parseKconfig] at hok
  split at hok
  · simp at hok
  · rename_i fs1 hmk
    split at hok
    · simp at hok
    · rename_i lines' hrd
      have hlines' : lines' = lines := by
        have h1 : filesLookup fs1 src = some lines' := readFile_ok fs1 src lines' hrd
        rw [filesLookup_makedirs st.fs _ fs1 hmk src, hread] at h1
        exact (Option.some.injEq _ _ ▸ h1).symm
      subst hlines'
      split at hok
      · simp at hok
      · rename_i fs2 hw
        have hfs2 : fs2 = setFile fs1 (cfg.parent_dir ++ relpath src st.common_dir) [] :=
          openWriteTrunc_ok fs1 _ fs2 hw
        split at hok
        · simp at hok
        · rename_i b c hpl
          simp only [Prod.mk.injEq, Except.ok.injEq] at hok
          obtain ⟨hb, _⟩ := hok
          rw [hb] at hpl
          have hcur0 : filesLookup fs2 (cfg.parent_dir ++ relpath src st.common_dir)
              = some [] := by
            rw [hfs2, filesLookup_setFile]
            simp
          have hres := processLines_content cfg fuel
            (cfg.parent_dir ++ relpath src st.common_dir) (dirname src) lines'
            ⟨fs2, st.common_dir,
              st.kconfig_sources ++ [(src, cfg.parent_dir ++ relpath src st.common_dir)]⟩
            [] st1 hpl hcur0
            (by
              intro e he
              refine hsep e ?_
              have hlen : (st.kconfig_sources
                  ++ [(src, cfg.parent_dir ++ relpath src st.common_dir)]).length
                  = st.kconfig_sources.length + 1 := by simp
              rw [← hlen]
              exact he)
          exact ⟨hres.1, by rw [hres.2]; simp⟩
theorem importRootLoop_records (cfg : Cfg) (fuel : Nat) :
    ∀ (sources : List FPath) (st st1 : St) (r : Except Err Unit),
      importRootLoop cfg fuel st sources = (st1, r) →
      st1.common_dir = st.common_dir ∧
      ∃ new, st1.kconfig_sources = st.kconfig_sources ++ new := by
  intro sources
  induction sources with
  | nil =>
    intro st st1 r h
    simp only [importRootLoop, Prod.mk.injEq] at h
    rw [← h.1]
    exact ⟨rfl, [], by simp⟩
  | cons s2 r2 ih2 =>
    intro st st1 r h
    simp only [importRootLoop] at h
    split at h
    · rename_i stY e hpY
      have hspecY : ParseSpec cfg st stY := by
        have := parseKconfig_spec cfg fuel st s2
        rw [hpY] at this
        exact this
      obtain ⟨hcY, newY, hrY, _, _⟩ := hspecY
      simp only [Prod.mk.injEq] at h
      rw [← h.1]
      exact ⟨hcY, newY, hrY⟩
    · rename_i stY rel2 hpY
      have hspecY : ParseSpec cfg st stY := by
        have := parseKconfig_spec cfg fuel st s2
        rw [hpY] at this
        exact this
      obtain ⟨hcY, newY, hrY, _, _⟩ := hspecY
      have hrec := ih2 ⟨appendChunk stY.fs cfg.kconfig_root
          ("source \"" ++ renderRel rel2 ++ "\"\n"), stY.common_dir,
          stY.kconfig_sources⟩ st1 r h
      refine ⟨hrec.1.trans hcY, ?_⟩
      obtain ⟨new3, hnew3⟩ := hrec.2
      refine ⟨newY ++ new3, ?_⟩
      have hstep : st1.kconfig_sources = stY.kconfig_sources ++ new3 := hnew3
      rw [hstep, hrY, List.append_assoc]
theorem importRootLoop_content (cfg : Cfg) (fuel : Nat) :
    ∀ (sources : List FPath) (st : St) (cur : List String) (st1 : St),
      importRootLoop cfg fuel st sources = (st1, .ok ()) →
      filesLookup st.fs cfg.kconfig_root = some cur →
      (∀ e ∈ st1.kconfig_sources.drop st.kconfig_sources.length,
        normPath e.2 ≠ normPath cfg.kconfig_root) →
      st1.common_dir = st.common_dir ∧
      filesLookup st1.fs cfg.kconfig_root
        = some (cur ++ sources.map (fun s =>
            "source \"" ++ renderRel (relpath s st.common_dir) ++ "\"\n")) := by
  intro sources
  induction sources with
  | nil =>
    intro st cur st1 h hcur _
    simp only [importRootLoop, Prod.mk.injEq] at h
    rw [← h.1]
    exact ⟨rfl, by simpa using hcur⟩
  | cons source rest ih =>
    intro st cur st1 h hcur hsep
    simp only [importRootLoop] at h
    split at h
    · simp at h
    · rename_i st2 rel hp
      have hrel : rel = relpath source st.common_dir :=
        parseKconfig_rel cfg fuel st source st2 rel hp
      have hspec : ParseSpec cfg st st2 := by
        have := parseKconfig_spec cfg fuel st source
        rw [hp] at this
        exact this
      obtain ⟨hc2, new2, hr2, _, hp2⟩ := hspec
      obtain ⟨hcL, newL, hrL⟩ := importRootLoop_records cfg fuel rest
        ⟨appendChunk st2.fs cfg.kconfig_root ("source \"" ++ renderRel rel ++ "\"\n"),
          st2.common_dir, st2.kconfig_sources⟩ st1 (.ok ()) h
      have hrecs : st1.kconfig_sources = st.kconfig_sources ++ (new2 ++ newL) := by
        have hstep : st1.kconfig_sources = st2.kconfig_sources ++ newL := hrL
        rw [hstep, hr2, List.append_assoc]
      have hdropall := records_drop_of_append st.kconfig_sources (new2 ++ newL)
        st1.kconfig_sources hrecs
      have hne2 : ∀ e ∈ new2, normPath e.2 ≠ normPath cfg.kconfig_root := by
        intro e he
        exact hsep e (by rw [hdropall]; exact List.mem_append.mpr (Or.inl he))
      have hcur2 : filesLookup st2.fs cfg.kconfig_root = some cur := by
        rw [hp2 cfg.kconfig_root hne2]
        exact hcur
      have hcur3 : filesLookup (appendChunk st2.fs cfg.kconfig_root
          ("source \"" ++ renderRel rel ++ "\"\n")) cfg.kconfig_root
          = some (cur ++ ["source \"" ++ renderRel rel ++ "\"\n"]) :=
        filesLookup_appendChunk_self st2.fs cfg.kconfig_root _ cur hcur2
      have hdropL : st1.kconfig_sources.drop st2.kconfig_sources.length = newL :=
        records_drop_of_append st2.kconfig_sources newL st1.kconfig_sources hrL
      have hihres := ih ⟨appendChunk st2.fs cfg.kconfig_root
          ("source \"" ++ renderRel rel ++ "\"\n"), st2.common_dir, st2.kconfig_sources⟩
        (cur ++ ["source \"" ++ renderRel rel ++ "\"\n"]) st1 h hcur3
        (by
          intro e he
          have heL : e ∈ newL := by
            rw [← hdropL]
            exact he
          exact hsep e (by rw [hdropall]; exact List.mem_append.mpr (Or.inr heL)))
      refine ⟨hihres.1.trans hc2, ?_⟩
      rw [hihres.2, List.map_cons,
        show (⟨appendChunk st2.fs cfg.kconfig_root
          ("source \"" ++ renderRel rel ++ "\"\n"), st2.common_dir,
          st2.kconfig_sources⟩ : St).common_dir = st.common_dir from hc2]
      simp [hrel]
/-! ## Content of the root file -/

theorem validateSources_ok_eq (fs : FS) :
    ∀ (sources r : List FPath), validateSources fs sources = .ok r → r = sources := by
  intro sources
  induction sources with
  | nil =>
    intro r h
    simp only [validateSources, Except.ok.injEq] at h
    exact h.symm
  | cons s rest ih =>
    intro r h
    simp only [validateSources] at h
    split at h
    · simp at h
    · split at h
      · simp at h
      · split at h
        · simp at h
        · rename_i r2 hr2
          simp only [Except.ok.injEq] at h
          rw [← h, ih r2 hr2]
theorem foldl_appendChunk_content (root : FPath) :
    ∀ (hs : List String) (fs : FS) (cur : List String),
      filesLookup fs root = some cur →
      filesLookup (hs.foldl (fun f h => appendChunk f root (h ++ "\n")) fs) root
        = some (cur ++ hs.map (fun h => h ++ "\n")) := by
  intro hs
  induction hs with
  | nil =>
    intro fs cur h
    simpa using h
  | cons hh t ih =>
    intro fs cur h
    simp only [List.foldl]
    rw [ih _ _ (filesLookup_appendChunk_self fs root _ cur h)]
    simp
theorem importSources_content (cfg : Cfg) (fuel : Nat) (st : St) (sources : List FPath)
    (st1 : St) (hok : importSources cfg fuel st sources = (st1, .ok ()))
    (hroot : ∀ e ∈ st1.kconfig_sources.drop st.kconfig_sources.length,
        normPath e.2 ≠ normPath cfg.kconfig_root) :
    ∃ cd, commonpath sources = .ok cd ∧ st1.common_dir = cd ∧
      filesLookup st1.fs cfg.kconfig_root
        = some (cfg.headers.map (fun h => h ++ "\n")
            ++ ("mainmenu \"" ++ cfg.title ++ " Configuration\"\n")
            :: sources.map (fun s => "source \"" ++ renderRel (relpath s cd) ++ "\"\n")) := by
  simp only [importSources] at hok
  split at hok
  · simp at hok
  · rename_i cd hcd
    refine ⟨cd, hcd, ?_⟩
    split at hok
    · simp at hok
    · rename_i fs2 hw
      have hfs2 : fs2 = setFile st.fs cfg.kconfig_root [] :=
        openWriteTrunc_ok st.fs cfg.kconfig_root fs2 hw
      have hcur0 : filesLookup fs2 cfg.kconfig_root = some [] := by
        rw [hfs2, filesLookup_setFile]
        simp
      have hcur1 := foldl_appendChunk_content cfg.kconfig_root cfg.headers fs2 [] hcur0
      have hcur2 := filesLookup_appendChunk_self
        (cfg.headers.foldl (fun f h => appendChunk f cfg.kconfig_root (h ++ "\n")) fs2)
        cfg.kconfig_root ("mainmenu \"" ++ cfg.title ++ " Configuration\"\n") _ hcur1
      have hres := importRootLoop_content cfg fuel sources
        ⟨appendChunk
            (cfg.headers.foldl (fun f h => appendChunk f cfg.kconfig_root (h ++ "\n")) fs2)
            cfg.kconfig_root ("mainmenu \"" ++ cfg.title ++ " Configuration\"\n"),
          cd, st.kconfig_sources⟩
        ([] ++ cfg.headers.map (fun h => h ++ "\n")
          ++ ["mainmenu \"" ++ cfg.title ++ " Configuration\"\n"]) st1 hok hcur2 hroot
      refine ⟨hres.1, ?_⟩
      rw [hres.2]
      simp
/-! ## Characterization of the directive pattern -/

theorem str_data_append (a b : String) : (a ++ b).data = a.data ++ b.data := by
  cases a
  cases b
  rfl
theorem str_data_ext (a b : String) (h : a.data = b.data) : a = b := by
  cases a
  cases b
  exact congrArg String.mk h
theorem str_mk_data (s : String) : String.mk s.data = s := by
  cases s
  rfl
theorem stripLit_append (lit : List Char) : ∀ r, stripLit lit (lit ++ r) = some r := by
  induction lit with
  | nil => intro r; rfl
  | cons c cs ih => intro r; simp [stripLit, ih]
theorem stripLit_some (lit : List Char) :
    ∀ l r, stripLit lit l = some r → l = lit ++ r := by
  induction lit with
  | nil =>
    intro l r h
    simp only [stripLit, Option.some.injEq] at h
    rw [h]
    rfl
  | cons c cs ih =>
    intro l r h
    cases l with
    | nil => simp [stripLit] at h
    | cons d ds =>
      simp only [stripLit] at h
      split at h
      · rename_i hd
        rw [hd, ih ds r h]
        rfl
      · cases h
theorem dropWhile_all_append (f : Char → Bool) :
    ∀ (l1 l2 : List Char), l1.all f → (l1 ++ l2).dropWhile f = l2.dropWhile f := by
  intro l1
  induction l1 with
  | nil => intro l2 _; rfl
  | cons c cs ih =>
    intro l2 h
    simp only [List.all_cons, Bool.and_eq_true] at h
    simp [List.dropWhile_cons, h.1, ih l2 h.2]
theorem takeWhile_all_stop (f : Char → Bool) :
    ∀ (l1 : List Char) (x : Char) (l2 : List Char), l1.all f → f x = false →
      (l1 ++ x :: l2).takeWhile f = l1 := by
  intro l1
  induction l1 with
  | nil =>
    intro x l2 _ hx
    simp [List.takeWhile_cons, hx]
  | cons c cs ih =>
    intro x l2 h hx
    simp only [List.all_cons, Bool.and_eq_true] at h
    simp [List.takeWhile_cons, h.1, ih x l2 h.2 hx]
theorem dropWhile_all_stop (f : Char → Bool) :
    ∀ (l1 : List Char) (x : Char) (l2 : List Char), l1.all f → f x = false →
      (l1 ++ x :: l2).dropWhile f = x :: l2 := by
  intro l1
  induction l1 with
  | nil =>
    intro x l2 _ hx
    simp [List.dropWhile_cons, hx]
  | cons c cs ih =>
    intro x l2 h hx
    simp only [List.all_cons, Bool.and_eq_true] at h
    simp [List.dropWhile_cons, h.1, ih x l2 h.2 hx]
theorem all_takeWhile (f : Char → Bool) : ∀ l : List Char, (l.takeWhile f).all f := by
  intro l
  induction l with
  | nil => rfl
  | cons c cs ih =>
    by_cases h : f c = true
    · simp [List.takeWhile_cons, h, ih]
    · simp only [Bool.not_eq_true] at h
      simp [List.takeWhile_cons, h]
theorem matchSource_decomp (ws p rest : String)
    (hws : ws.data.all isPySpace) (hq : p.data.all (fun c => c ≠ '"')) :
    matchSource ("source" ++ ws ++ "\"" ++ p ++ "\"" ++ rest) = some p := by
  have hdata : ("source" ++ ws ++ "\"" ++ p ++ "\"" ++ rest).data
      = "source".data ++ (ws.data ++ '"' :: (p.data ++ '"' :: rest.data)) := by
    simp [str_data_append]
  have h1 : (ws.data ++ '"' :: (p.data ++ '"' :: rest.data)).dropWhile isPySpace
      = '"' :: (p.data ++ '"' :: rest.data) :=
    dropWhile_all_stop isPySpace ws.data '"' _ hws rfl
  have h2 : (p.data ++ '"' :: rest.data).dropWhile (fun c => decide (c ≠ '"'))
      = '"' :: rest.data :=
    dropWhile_all_stop _ p.data '"' rest.data hq (by simp)
  have h3 : (p.data ++ '"' :: rest.data).takeWhile (fun c => decide (c ≠ '"')) = p.data :=
    takeWhile_all_stop _ p.data '"' rest.data hq (by simp)
  unfold matchSource matchSourceAux
  rw [hdata]
  simp only [stripLit_append, h1, h2, h3, str_mk_data]
theorem matchSourceAux_some (cs : List Char) (cap : String)
    (h : matchSourceAux cs = some cap) :
    ∃ ws r2, cs = ws ++ '"' :: (cap.data ++ '"' :: r2)
      ∧ ws.all isPySpace ∧ cap.data.all (fun c => c ≠ '"') := by
  unfold matchSourceAux at h
  split at h
  · rename_i r1 hdw
    split at h
    · rename_i r2' hdw2
      simp only [Option.some.injEq] at h
      have hcap : cap.data = r1.takeWhile (fun c => c ≠ '"') := by
        rw [← h]
      refine ⟨cs.takeWhile isPySpace, r2', ?_, all_takeWhile isPySpace cs, ?_⟩
      · have hr1eq : r1 = cap.data ++ '"' :: r2' := by
          rw [hcap, ← hdw2]
          exact (List.takeWhile_append_dropWhile _ r1).symm
        conv_lhs => rw [← List.takeWhile_append_dropWhile isPySpace cs]
        rw [hdw, hr1eq]
      · rw [hcap]
        exact all_takeWhile _ r1
    · cases h
  · cases h
theorem matchSource_some (line : String) (cap : String)
    (h : matchSource line = some cap) :
    ∃ ws rest, line = "source" ++ ws ++ "\"" ++ cap ++ "\"" ++ rest
      ∧ ws.data.all isPySpace ∧ cap.data.all (fun c => c ≠ '"') := by
  unfold matchSource at h
  split at h
  · rename_i cs hstrip
    have hline : line.data = "source".data ++ cs := stripLit_some "source".data line.data cs hstrip
    obtain ⟨ws, r2, hcs, hws, hcap⟩ := matchSourceAux_some cs cap h
    refine ⟨String.mk ws, String.mk r2, ?_, hws, hcap⟩
    apply str_data_ext
    rw [str_data_append, str_data_append, str_data_append, str_data_append, str_data_append]
    rw [hline, hcs]
    simp
  · cases h
/-! ## Claims C2 and C9: the directive pattern -/

/-- C2 counterexample: the line with a leading tab matches the claim's pattern
(optional leading whitespace before the keyword), but the code's pattern does
not match it, and the transformer loop writes it to the destination verbatim
instead of treating it as a reference. -/
theorem leading_whitespace_not_directive_cex :
    claimedDirectiveMatch "\tsource \"x\"\n" = some "x"
    ∧ matchSource "\tsource \"x\"\n" = none
    ∧ processLines (parseKconfig cfgCex 3) ["out", "K"] ["a"] stCex ["\tsource \"x\"\n"]
      = (⟨appendChunk stCex.fs ["out", "K"] "\tsource \"x\"\n",
          stCex.common_dir, stCex.kconfig_sources⟩, .ok ()) :=
  ⟨rfl, rfl, rfl⟩
/-- C2 (amended): during Transform a line is treated as a reference directive
iff it starts with the keyword `source` at the very start of the line (no
leading whitespace is permitted before the keyword), followed by optional
whitespace, then exactly one pair of double quotes capturing a non-empty
quote-free inner path (trailing content after the closing quote is
irrelevant); every other line - including `source ""` with an empty captured
path, a line with unbalanced quotes, or a directive indented by whitespace -
is written to the destination unchanged, verbatim, and raises no error. -/
theorem directive_pattern_characterization (line : String) :
    ((∃ ws p rest, line = "source" ++ ws ++ "\"" ++ p ++ "\"" ++ rest
        ∧ ws.data.all isPySpace ∧ p ≠ "" ∧ p.data.all (fun c => c ≠ '"'))
      ↔ ∃ cap, matchSource line = some cap ∧ cap ≠ "")
    ∧ ((matchSource line = none ∨ matchSource line = some "") →
        ∀ (step : St → FPath → St × Except Err (List String)) (dest srcDir : FPath)
          (st : St) (rest2 : List String),
          processLines step dest srcDir st (line :: rest2)
            = processLines step dest srcDir
                ⟨appendChunk st.fs dest line, st.common_dir, st.kconfig_sources⟩ rest2) := by
  constructor
  · constructor
    · rintro ⟨ws, p, rest, hline, hws, hp, hq⟩
      refine ⟨p, ?_, hp⟩
      rw [hline]
      exact matchSource_decomp ws p rest hws hq
    · rintro ⟨cap, hm, hcap⟩
      obtain ⟨ws, rest, hline, hws, hq⟩ := matchSource_some line cap hm
      exact ⟨ws, cap, rest, hline, hws, hcap, hq⟩
  · rintro (hm | hm) <;> intro step dest srcDir st rest2
    · simp only [processLines, hm]
    · simp only [processLines, hm, ne_eq, not_true_eq_false, if_false, not_false_eq_true]
theorem directive_pattern_characterization_witness :
    ∃ cap, matchSource "source \"x\"\n" = some cap ∧ cap ≠ "" :=
  (directive_pattern_characterization "source \"x\"\n").1.mp
    ⟨" ", "x", "\n", rfl, rfl, by decide, rfl⟩
/-- C9: because the directive pattern is not anchored at the end of the line,
a line beginning with `source "<p>"` (non-empty quote-free `p`) followed by
arbitrary additional content still matches, capturing `p`; the transformer
then recurses into the referenced file and writes exactly
`source "<relPath>"\n` - the content after the closing quote is silently
discarded. -/
theorem trailing_content_discarded (p rest : String) (common srcDir : FPath)
    (cfg : Cfg) (fuel : Nat) (st : St) (dest : FPath) (tail : List String)
    (hp : p ≠ "") (hq : p.data.all (fun c => c ≠ '"')) :
    matchSource ("source \"" ++ p ++ "\"" ++ rest) = some p
    ∧ rewriteLine common srcDir ("source \"" ++ p ++ "\"" ++ rest)
      = "source \"" ++ renderRel (relpath (joinPath srcDir p) common) ++ "\"\n"
    ∧ processLines (parseKconfig cfg fuel) dest srcDir st
        (("source \"" ++ p ++ "\"" ++ rest) :: tail)
      = (match parseKconfig cfg fuel st (joinPath srcDir p) with
         | (st1, .error e) => (st1, .error e)
         | (st1, .ok relSegs) =>
           processLines (parseKconfig cfg fuel) dest srcDir
             ⟨appendChunk st1.fs dest ("source \"" ++ renderRel relSegs ++ "\"\n"),
               st1.common_dir, st1.kconfig_sources⟩ tail) := by
  have e1 : ("source \"" : String) = "source" ++ " " ++ "\"" := rfl
  have hms : matchSource ("source \"" ++ p ++ "\"" ++ rest) = some p := by
    rw [e1]
    exact matchSource_decomp " " p rest rfl hq
  refine ⟨hms, ?_, ?_⟩
  · simp [rewriteLine, hms, hp]
  · simp only [processLines, hms]
    rw [if_pos hp]
theorem trailing_content_discarded_witness :
    matchSource ("source \"" ++ "a" ++ "\"" ++ " # comment") = some "a" :=
  (trailing_content_discarded "a" " # comment" ["a"] ["a"] cfgCex 1 stCex
    ["out", "K"] [] (by decide) rfl).1
/-! ## Claim C1: layout of the generated root file -/

/-- C1: for every valid invocation of Import with a non-empty list of existing
source files (modelled by a successful run of `mainModel`; the hypothesis on
the recorded destinations rules out a copied file overwriting the root file
itself), the generated root file consists of exactly the banner line
`# AUTOGENERATED FILE. DO NOT MODIFY`, then the `mainmenu "<title>
Configuration"` line, then exactly one `source "<relPath>"` line per top-level
input path, in the order the inputs were supplied. -/
theorem import_root_file_layout (fuel : Nat) (fs : FS) (title : String) (root : FPath)
    (sources : List FPath) (st1 : St)
    (_hne : sources ≠ [])
    (hok : mainModel fuel fs title root sources = (st1, .ok ()))
    (hroot : ∀ e ∈ st1.kconfig_sources, normPath e.2 ≠ normPath root) :
    ∃ cd, commonpath sources = .ok cd ∧
      filesLookup st1.fs root
        = some ("# AUTOGENERATED FILE. DO NOT MODIFY\n"
            :: ("mainmenu \"" ++ title ++ " Configuration\"\n")
            :: sources.map (fun s => "source \"" ++ renderRel (relpath s cd) ++ "\"\n")) := by
  simp only [mainModel] at hok
  split at hok
  · simp at hok
  · rename_i srcs hv
    have hsrcs := validateSources_ok_eq fs sources srcs hv
    rw [hsrcs] at hok
    split at hok
    · simp at hok
    · rename_i cfg0 st0 hinit
      simp only [kconfigMergeInit] at hinit
      split at hinit
      · simp at hinit
      · rename_i fs1 hmk
        simp only [Except.ok.injEq, Prod.mk.injEq] at hinit
        obtain ⟨hcfg, hst⟩ := hinit
        rw [← hcfg, ← hst] at hok
        obtain ⟨cd, hcd, _, hcontent⟩ := importSources_content
          ⟨title, root, dirname root, "always", ["# AUTOGENERATED FILE. DO NOT MODIFY"]⟩
          fuel ⟨fs1, [], []⟩ sources st1 hok
          (by
            intro e he
            exact hroot e (List.mem_of_mem_drop he))
        refine ⟨cd, hcd, ?_⟩
        rw [hcontent]
        rfl
theorem import_root_file_layout_witness :
    ∃ cd, commonpath [["a", "b", "x.kconfig"], ["a", "c", "y.kconfig"]] = .ok cd ∧
      filesLookup (mainModel 3 fsC1 "Demo" ["out", "Kconfig"]
          [["a", "b", "x.kconfig"], ["a", "c", "y.kconfig"]]).1.fs ["out", "Kconfig"]
        = some ("# AUTOGENERATED FILE. DO NOT MODIFY\n"
            :: ("mainmenu \"" ++ "Demo" ++ " Configuration\"\n")
            :: [["a", "b", "x.kconfig"], ["a", "c", "y.kconfig"]].map
                (fun s => "source \"" ++ renderRel (relpath s cd) ++ "\"\n")) :=
  import_root_file_layout 3 fsC1 "Demo" ["out", "Kconfig"]
    [["a", "b", "x.kconfig"], ["a", "c", "y.kconfig"]]
    (mainModel 3 fsC1 "Demo" ["out", "Kconfig"]
      [["a", "b", "x.kconfig"], ["a", "c", "y.kconfig"]]).1
    (by decide) rfl (by decide)
/-! ## Claim C3: per-file rewrite -/

/-- C3: for a source file whose content is `lines`, a successful transform
writes to its mapped destination exactly the per-line image of `rewriteLine`:
each well-formed directive line (pattern match with non-empty captured path,
referencing an existing file - existence is implied by the success hypothesis)
becomes exactly `source "<relPath>"` with a single trailing newline, `relPath`
being the referenced file's path relative to the common directory, and every
other line is written unchanged; the lines appear in the original order and
the output line count equals the input line count.  The hypothesis on the
recorded destinations rules out a nested file overwriting this file's own
destination. -/
theorem transform_rewrites_directives_in_order (cfg : Cfg) (fuel : Nat) (st : St)
    (src : FPath) (st1 : St) (rel lines : List String)
    (hok : parseKconfig cfg (fuel + 1) st src = (st1, .ok rel))
    (hread : filesLookup st.fs src = some lines)
    (hsep : ∀ e ∈ st1.kconfig_sources.drop (st.kconfig_sources.length + 1),
      normPath e.2 ≠ normPath (cfg.parent_dir ++ relpath src st.common_dir)) :
    filesLookup st1.fs (cfg.parent_dir ++ relpath src st.common_dir)
      = some (lines.map (rewriteLine st.common_dir (dirname src)))
    ∧ (lines.map (rewriteLine st.common_dir (dirname src))).length = lines.length := by
  have h := parseKconfig_content cfg fuel st src st1 rel lines hok hread hsep
  exact ⟨h.2, by simp⟩
theorem transform_rewrites_directives_in_order_witness :
    filesLookup (parseKconfig cfgC3 2 stC3 ["a", "x.k"]).1.fs
        (["out"] ++ relpath ["a", "x.k"] ["a"])
      = some (["source \"d/y.k\"\n", "# comment\n", "source \"d/z.k\"\n"].map
          (rewriteLine ["a"] (dirname ["a", "x.k"])))
    ∧ (["source \"d/y.k\"\n", "# comment\n", "source \"d/z.k\"\n"].map
        (rewriteLine ["a"] (dirname ["a", "x.k"]))).length
      = (["source \"d/y.k\"\n", "# comment\n", "source \"d/z.k\"\n"] : List String).length :=
  transform_rewrites_directives_in_order cfgC3 1 stC3 ["a", "x.k"]
    (parseKconfig cfgC3 2 stC3 ["a", "x.k"]).1 ["x.k"]
    ["source \"d/y.k\"\n", "# comment\n", "source \"d/z.k\"\n"]
    rfl rfl (by decide)
/-! ## Claim C4: the common directory computation -/

theorem commonStem_prefix_left : ∀ a b : FPath, commonStem a b <+: a := by
  intro a
  induction a with
  | nil => intro b; simp [commonStem]
  | cons x xs ih =>
    intro b
    cases b with
    | nil => simp [commonStem]
    | cons y ys =>
      by_cases h : x = y
      · have hstep : commonStem (x :: xs) (y :: ys) = x :: commonStem xs ys := by
          simp [commonStem, h]
        rw [hstep]
        exact List.cons_prefix_cons.mpr ⟨rfl, ih ys⟩
      · simp [commonStem, h]
theorem commonStem_prefix_right : ∀ a b : FPath, commonStem a b <+: b := by
  intro a
  induction a with
  | nil => intro b; simp [commonStem]
  | cons x xs ih =>
    intro b
    cases b with
    | nil => simp [commonStem]
    | cons y ys =>
      by_cases h : x = y
      · have hstep : commonStem (x :: xs) (y :: ys) = x :: commonStem xs ys := by
          simp [commonStem, h]
        rw [hstep, h]
        exact List.cons_prefix_cons.mpr ⟨rfl, ih ys⟩
      · simp [commonStem, h]
theorem prefix_commonStem : ∀ (c a b : FPath), c <+: a → c <+: b → c <+: commonStem a b := by
  intro c
  induction c with
  | nil => intro a b _ _; simp
  | cons x xs ih =>
    intro a b ha hb
    obtain ⟨ta, hta⟩ := ha
    obtain ⟨tb, htb⟩ := hb
    rw [← hta, ← htb]
    simp only [List.cons_append, commonStem, if_pos rfl]
    exact List.cons_prefix_cons.mpr ⟨rfl, ih (xs ++ ta) (xs ++ tb) ⟨ta, rfl⟩ ⟨tb, rfl⟩⟩
theorem foldl_commonStem_bound : ∀ (rest : List FPath) (acc : FPath),
    (rest.foldl (fun acc q => commonStem acc (cleanSegs q)) acc <+: acc
      ∧ ∀ q ∈ rest, rest.foldl (fun acc q => commonStem acc (cleanSegs q)) acc <+: cleanSegs q)
    ∧ ∀ c, c <+: acc → (∀ q ∈ rest, c <+: cleanSegs q) →
      c <+: rest.foldl (fun acc q => commonStem acc (cleanSegs q)) acc := by
  intro rest
  induction rest with
  | nil =>
    intro acc
    exact ⟨⟨List.prefix_refl acc, by simp⟩, fun c hc _ => hc⟩
  | cons q qs ih =>
    intro acc
    simp only [List.foldl_cons]
    refine ⟨⟨?_, ?_⟩, ?_⟩
    · exact ((ih (commonStem acc (cleanSegs q))).1.1).trans (commonStem_prefix_left _ _)
    · intro q2 hq2
      rcases List.mem_cons.mp hq2 with h | h
      · rw [h]
        exact ((ih (commonStem acc (cleanSegs q))).1.1).trans (commonStem_prefix_right _ _)
      · exact (ih (commonStem acc (cleanSegs q))).1.2 q2 h
    · intro c hc hall
      refine (ih (commonStem acc (cleanSegs q))).2 c ?_ ?_
      · exact prefix_commonStem c acc (cleanSegs q) hc (hall q (List.mem_cons_self q qs))
      · intro q2 hq2
        exact hall q2 (List.mem_cons_of_mem q hq2)
/-- C4 counterexample: for the single input path `/a/b/x.kconfig` the computed
common path is the input file path itself, which is not a prefix of the
input's directory `/a/b` - it is not "the deepest directory that is a prefix
of every input path's directory", refuting the claim's gloss for singleton
lists (`os.path.commonpath` works on the whole paths, file names included). -/
theorem commonpath_single_input_cex :
    commonpath [["a", "b", "x.kconfig"]] = .ok ["a", "b", "x.kconfig"]
    ∧ ¬ (["a", "b", "x.kconfig"] : FPath) <+: dirname ["a", "b", "x.kconfig"] := by
  refine ⟨rfl, ?_⟩
  decide
/-- C4 (amended): `commonpath` computes the longest common path-segment prefix
of the input paths THEMSELVES (with empty and `.` segments dropped), not of
their parent directories: the result is a segment prefix of every cleaned
input, every common segment prefix of all inputs is a prefix of the result,
and on the example paths `/a/b/x.kconfig`, `/a/b/c/y.kconfig`,
`/a/d/z.kconfig` the result is `/a`.  (For at least two inputs none of which
is a prefix of another, this coincides with the deepest common ancestor
directory; for a single input it is the input file path itself - see the
counterexample.) -/
theorem commonpath_longest_common_stem (p : FPath) (rest : List FPath) :
    (∀ cd, commonpath (p :: rest) = .ok cd →
      ((cd <+: cleanSegs p ∧ ∀ q ∈ rest, cd <+: cleanSegs q)
        ∧ ∀ c, c <+: cleanSegs p → (∀ q ∈ rest, c <+: cleanSegs q) → c <+: cd))
    ∧ commonpath [["a", "b", "x.kconfig"], ["a", "b", "c", "y.kconfig"],
        ["a", "d", "z.kconfig"]] = .ok ["a"] := by
  constructor
  · intro cd hcd
    simp only [commonpath, Except.ok.injEq] at hcd
    rw [← hcd]
    exact ⟨(foldl_commonStem_bound rest (cleanSegs p)).1,
      fun c hc hall => (foldl_commonStem_bound rest (cleanSegs p)).2 c hc hall⟩
  · rfl
theorem commonpath_longest_common_stem_witness :
    ((["a"] : FPath) <+: cleanSegs ["a", "b", "x.kconfig"]
      ∧ ∀ q ∈ [["a", "b", "c", "y.kconfig"], ["a", "d", "z.kconfig"]],
        (["a"] : FPath) <+: cleanSegs q)
    ∧ ∀ c, c <+: cleanSegs ["a", "b", "x.kconfig"] →
      (∀ q ∈ [["a", "b", "c", "y.kconfig"], ["a", "d", "z.kconfig"]], c <+: cleanSegs q) →
      c <+: ["a"] :=
  (commonpath_longest_common_stem ["a", "b", "x.kconfig"]
    [["a", "b", "c", "y.kconfig"], ["a", "d", "z.kconfig"]]).1 ["a"] rfl
/-! ## Claim C5: input validation fails before any output -/

theorem isRegularFile_pathExists (fs : FS) (p : FPath)
    (h : isRegularFile fs p = true) : pathExists fs p = true := by
  simp only [isRegularFile] at h
  simp [pathExists, h]
theorem validateSources_first_bad (fs : FS) :
    ∀ sources : List FPath, (∃ p ∈ sources, isRegularFile fs p = false) →
      ∃ q ∈ sources, isRegularFile fs q = false ∧
        validateSources fs sources
          = .error ((if pathExists fs q then "Not a file: " else "Could not find file: ")
              ++ renderPath q) := by
  intro sources
  induction sources with
  | nil =>
    rintro ⟨p, hp, _⟩
    exact absurd hp (List.not_mem_nil p)
  | cons s rest ih =>
    rintro ⟨p, hp, hbad⟩
    by_cases hs : isRegularFile fs s = false
    · refine ⟨s, List.mem_cons_self s rest, hs, ?_⟩
      by_cases hex : pathExists fs s = true
      · simp [validateSources, hex, hs]
      · simp only [Bool.not_eq_true] at hex
        simp [validateSources, hex]
    · have hsT : isRegularFile fs s = true := by
        cases hh : isRegularFile fs s
        · exact absurd hh hs
        · rfl
      have hpmem : p ∈ rest := by
        rcases List.mem_cons.mp hp with h | h
        · rw [h] at hbad
          rw [hbad] at hsT
          cases hsT
        · exact h
      obtain ⟨q, hq, hbadq, herr⟩ := ih ⟨p, hpmem, hbad⟩
      refine ⟨q, List.mem_cons_of_mem s hq, hbadq, ?_⟩
      simp [validateSources, isRegularFile_pathExists fs s hsT, hsT, herr]
/-- C5: if any supplied source path does not exist or is not a regular file,
the tool raises an exception whose message names that (first offending) path,
during input validation and before any output file or directory is written:
the returned disk state is exactly the untouched input filesystem. -/
theorem invalid_source_fails_before_output (fuel : Nat) (fs : FS) (title : String)
    (root : FPath) (sources : List FPath)
    (hbad : ∃ p ∈ sources, isRegularFile fs p = false) :
    ∃ q ∈ sources, isRegularFile fs q = false ∧
      mainModel fuel fs title root sources
        = (⟨fs, [], []⟩, .error (.invalidInput
            ((if pathExists fs q then "Not a file: " else "Could not find file: ")
              ++ renderPath q))) := by
  obtain ⟨q, hq, hbadq, herr⟩ := validateSources_first_bad fs sources hbad
  exact ⟨q, hq, hbadq, by simp [mainModel, herr]⟩
theorem invalid_source_fails_before_output_witness :
    ∃ q ∈ [(["tmp", "missing.kconfig"] : FPath)], isRegularFile fsC1 q = false ∧
      mainModel 3 fsC1 "Demo" ["out", "Kconfig"] [["tmp", "missing.kconfig"]]
        = (⟨fsC1, [], []⟩, .error (.invalidInput
            ((if pathExists fsC1 q then "Not a file: "
              else "Could not find file: ") ++ renderPath q))) :=
  invalid_source_fails_before_output 3 fsC1 "Demo" ["out", "Kconfig"]
    [["tmp", "missing.kconfig"]] ⟨["tmp", "missing.kconfig"], by decide, by decide⟩
/-! ## Claim C6: the round-trip property fails -/

/-- C6 (the code violates the round-trip property): a first import of two
files succeeds, but re-importing the generated root file as the sole fresh
input does not produce a structurally equivalent tree - it fails outright
with an IsADirectoryError: `os.path.commonpath` of a single-element list is
the file path itself, so the root file's own destination is
`join(parent_dir, '.')` - the output parent directory, which cannot be opened
for writing. -/
theorem roundtrip_reimport_fails :
    (mainModel 3 fsC1 "Demo" ["out", "Kconfig"]
        [["a", "b", "x.kconfig"], ["a", "c", "y.kconfig"]]).2 = .ok ()
    ∧ (mainModel 3 (mainModel 3 fsC1 "Demo" ["out", "Kconfig"]
          [["a", "b", "x.kconfig"], ["a", "c", "y.kconfig"]]).1.fs
        "Demo" ["out2", "Kconfig"] [["out", "Kconfig"]]).2
      = .error (.isADirectory ["out2"]) :=
  ⟨rfl, rfl⟩
/-! ## Claim C7: one record per invocation, no deduplication -/

/-- C7: every successful Transform invocation appends exactly one record - the
pair of the original source path and its mapped destination - to the global
record list, positioned before all records of the nested invocations (the
record is stored before the file content is processed), and the equation is a
plain list append, so no deduplication happens even when the same pair is
already present (see the witness, which starts from a state already containing
the pair); the summary count grows by exactly one for this invocation plus one
per nested invocation. -/
theorem transform_appends_one_record (cfg : Cfg) (fuel : Nat) (st : St) (src : FPath)
    (st1 : St) (rel : List String)
    (hok : parseKconfig cfg (fuel + 1) st src = (st1, .ok rel)) :
    ∃ tail, st1.kconfig_sources
        = st.kconfig_sources ++ (src, cfg.parent_dir ++ relpath src st.common_dir) :: tail
      ∧ summaryCount st1 = summaryCount st + 1 + tail.length := by
  simp only [parseKconfig] at hok
  split at hok
  · simp at hok
  · rename_i fs1 hmk
    split at hok
    · simp at hok
    · rename_i lines hrd
      split at hok
      · simp at hok
      · rename_i fs2 hw
        split at hok
        · simp at hok
        · rename_i b c hpl
          simp only [Prod.mk.injEq, Except.ok.injEq] at hok
          obtain ⟨hb, _⟩ := hok
          rw [hb] at hpl
          have hproc := processLines_spec cfg fuel
            (cfg.parent_dir ++ relpath src st.common_dir) (dirname src)
            (fun st src => parseKconfig_spec cfg fuel st src) lines
            ⟨fs2, st.common_dir,
              st.kconfig_sources ++ [(src, cfg.parent_dir ++ relpath src st.common_dir)]⟩
          rw [hpl] at hproc
          obtain ⟨_, new, hr, _, _⟩ := hproc
          have hstep : st1.kconfig_sources = (st.kconfig_sources
              ++ [(src, cfg.parent_dir ++ relpath src st.common_dir)]) ++ new := hr
          refine ⟨new, ?_, ?_⟩
          · rw [hstep, List.append_assoc]
            rfl
          · simp only [summaryCount, hstep, List.length_append, List.length_cons,
              List.length_nil]
theorem transform_appends_one_record_witness :
    ∃ tail, (parseKconfig cfgC3 2 stC7 ["a", "x.k"]).1.kconfig_sources
        = stC7.kconfig_sources
          ++ (["a", "x.k"], cfgC3.parent_dir ++ relpath ["a", "x.k"] stC7.common_dir) :: tail
      ∧ summaryCount (parseKconfig cfgC3 2 stC7 ["a", "x.k"]).1
        = summaryCount stC7 + 1 + tail.length :=
  transform_appends_one_record cfgC3 1 stC7 ["a", "x.k"]
    (parseKconfig cfgC3 2 stC7 ["a", "x.k"]).1 ["x.k"] rfl
/-! ## Claim C8: the overwrite policy is never consulted -/

theorem parseKconfig_cfg_agnostic (cfg1 cfg2 : Cfg)
    (hpd : cfg1.parent_dir = cfg2.parent_dir) :
    ∀ (fuel : Nat) (st : St) (src : FPath),
      parseKconfig cfg1 fuel st src = parseKconfig cfg2 fuel st src := by
  intro fuel
  induction fuel with
  | zero => intro st src; rfl
  | succ fuel ih =>
    intro st src
    have hstep : parseKconfig cfg1 fuel = parseKconfig cfg2 fuel := by
      funext st src
      exact ih st src
    simp only [parseKconfig, hpd, hstep]
theorem importRootLoop_cfg_agnostic (cfg1 cfg2 : Cfg)
    (hpd : cfg1.parent_dir = cfg2.parent_dir)
    (hroot : cfg1.kconfig_root = cfg2.kconfig_root) (fuel : Nat) :
    ∀ (sources : List FPath) (st : St),
      importRootLoop cfg1 fuel st sources = importRootLoop cfg2 fuel st sources := by
  intro sources
  induction sources with
  | nil => intro st; rfl
  | cons s rest ih =>
    intro st
    have hstep : parseKconfig cfg1 fuel = parseKconfig cfg2 fuel := by
      funext st src
      exact parseKconfig_cfg_agnostic cfg1 cfg2 hpd fuel st src
    simp only [importRootLoop, hstep, hroot]
    cases hpk : parseKconfig cfg2 fuel st s with
    | mk st2 r =>
      cases r with
      | error e => rfl
      | ok rel => exact ih _
theorem importSources_cfg_agnostic (cfg1 cfg2 : Cfg)
    (hpd : cfg1.parent_dir = cfg2.parent_dir)
    (hroot : cfg1.kconfig_root = cfg2.kconfig_root)
    (htitle : cfg1.title = cfg2.title)
    (hheaders : cfg1.headers = cfg2.headers)
    (fuel : Nat) (st : St) (sources : List FPath) :
    importSources cfg1 fuel st sources = importSources cfg2 fuel st sources := by
  have hloop : importRootLoop cfg1 fuel = importRootLoop cfg2 fuel := by
    funext stX ss
    exact importRootLoop_cfg_agnostic cfg1 cfg2 hpd hroot fuel ss stX
  simp only [importSources, hroot, htitle, hheaders, hloop]
/-- C8: the overwrite policy parameter is stored in the configuration but
never consulted: for any two overwrite values and otherwise identical inputs,
the run produces identical results - the same root file, the same copied
output tree and the same source records (the full final state, which does not
even contain the overwrite value, is equal). -/
theorem overwrite_param_unobservable (title : String) (root : FPath)
    (o1 o2 : String) (fs : FS) (fuel : Nat) (sources : List FPath) :
    importRun title root o1 fs fuel sources = importRun title root o2 fs fuel sources := by
  simp only [importRun, kconfigMergeInit]
  cases makedirs fs (dirname root) with
  | error e => rfl
  | ok fs1 =>
    exact congrArg Except.ok (importSources_cfg_agnostic
      ⟨title, root, dirname root, o1, ["# AUTOGENERATED FILE. DO NOT MODIFY"]⟩
      ⟨title, root, dirname root, o2, ["# AUTOGENERATED FILE. DO NOT MODIFY"]⟩
      rfl rfl rfl rfl fuel ⟨fs1, [], []⟩ sources)
/-! ## Claim C10: termination on finite acyclic reference graphs -/

theorem InvP_appendChunk (fs0 : FS) (common : FPath) (st : St) (dest : FPath)
    (chunk : String) (hinv : InvP fs0 common st)
    (hdest : ∀ p, DomP fs0 p → normPath dest ≠ normPath p) :
    InvP fs0 common ⟨appendChunk st.fs dest chunk, st.common_dir, st.kconfig_sources⟩ := by
  refine ⟨hinv.1, ?_⟩
  intro p hp
  rw [filesLookup_appendChunk_ne st.fs dest chunk p (fun hh => hdest p hp hh.symm)]
  exact hinv.2 p hp
theorem makedirs_error_shape (fs : FS) (p : FPath) (e : Err)
    (h : makedirs fs p = .error e) : e = .fileExists p := by
  unfold makedirs at h
  split at h
  · cases h
    rfl
  · cases h
theorem readFile_error_shape (fs : FS) (p : FPath) (e : Err)
    (h : readFile fs p = .error e) : e = .isADirectory p ∨ e = .notFound p := by
  unfold readFile at h
  split at h
  · cases h
    exact Or.inl rfl
  · split at h
    · cases h
    · cases h
      exact Or.inr rfl
theorem openWriteTrunc_error_shape (fs : FS) (p : FPath) (e : Err)
    (h : openWriteTrunc fs p = .error e) : e = .isADirectory p := by
  unfold openWriteTrunc at h
  split at h
  · cases h
    rfl
  · cases h
theorem commonpath_error_shape (l : List FPath) (e : Err)
    (h : commonpath l = .error e) : e = .emptySources := by
  cases l with
  | nil =>
    simp only [commonpath, Except.error.injEq] at h
    exact h.symm
  | cons p rest => simp [commonpath] at h
theorem err_ne_noFuel_transfer {α β : Type} (e : Err)
    (h : (Except.error e : Except Err α) ≠ Except.error Err.noFuel) :
    (Except.error e : Except Err β) ≠ Except.error Err.noFuel := by
  intro hc
  injection hc with h2
  rw [h2] at h
  exact h rfl
theorem refsOfLines_cons (srcDir : FPath) (line : String) (rest : List String) :
    refsOfLines srcDir (line :: rest)
      = match lineRef srcDir line with
        | none => refsOfLines srcDir rest
        | some q => q :: refsOfLines srcDir rest := by
  cases h : lineRef srcDir line <;> simp [refsOfLines, List.filterMap_cons, h]
theorem processLines_noFuel (cfg : Cfg) (fuel : Nat) (fs0 : FS) (common : FPath)
    (h : FPath → Nat) (R : FPath → Prop) (dest srcDir : FPath)
    (IH : ∀ st src, InvP fs0 common st → R src → DomP fs0 src → h src < fuel →
      (parseKconfig cfg fuel st src).2 ≠ .error .noFuel
      ∧ ∀ st' rel, parseKconfig cfg fuel st src = (st', .ok rel) → InvP fs0 common st')
    (hdest : ∀ p, DomP fs0 p → normPath dest ≠ normPath p) :
    ∀ (lines : List String) (st : St), InvP fs0 common st →
      (∀ q ∈ refsOfLines srcDir lines, R q ∧ DomP fs0 q ∧ h q < fuel) →
      (processLines (parseKconfig cfg fuel) dest srcDir st lines).2 ≠ .error .noFuel
      ∧ ∀ st', processLines (parseKconfig cfg fuel) dest srcDir st lines = (st', .ok ()) →
          InvP fs0 common st' := by
  intro lines
  induction lines with
  | nil =>
    intro st hinv _
    constructor
    · simp [processLines]
    · intro st' hst'
      simp only [processLines, Prod.mk.injEq] at hst'
      rw [← hst'.1]
      exact hinv
  | cons line rest ih =>
    intro st hinv hrefs
    simp only [processLines]
    split
    · rename_i cap hm
      split
      · rename_i hcap
        have hlr : lineRef srcDir line = some (joinPath srcDir cap) := by
          simp [lineRef, hm, hcap]
        have hre : refsOfLines srcDir (line :: rest)
            = joinPath srcDir cap :: refsOfLines srcDir rest := by
          rw [refsOfLines_cons, hlr]
        have hhead := hrefs (joinPath srcDir cap) (by rw [hre]; exact List.mem_cons_self _ _)
        have hrefs' : ∀ q ∈ refsOfLines srcDir rest, R q ∧ DomP fs0 q ∧ h q < fuel := by
          intro q hq
          exact hrefs q (by rw [hre]; exact List.mem_cons_of_mem _ hq)
        cases hpk : parseKconfig cfg fuel st (joinPath srcDir cap) with
        | mk st2 r =>
          cases r with
          | error e =>
            constructor
            · have hne := (IH st (joinPath srcDir cap) hinv hhead.1 hhead.2.1 hhead.2.2).1
              rw [hpk] at hne
              exact err_ne_noFuel_transfer e hne
            · intro st' hc
              simp at hc
          | ok rel =>
            have hInv2 := (IH st (joinPath srcDir cap) hinv hhead.1 hhead.2.1 hhead.2.2).2
              st2 rel hpk
            exact ih _ (InvP_appendChunk fs0 common st2 dest _ hInv2 hdest) hrefs'
      · rename_i hcap
        have hlr : lineRef srcDir line = none := by
          simp [lineRef, hm, not_not.mp hcap]
        have hrefs' : ∀ q ∈ refsOfLines srcDir rest, R q ∧ DomP fs0 q ∧ h q < fuel := by
          intro q hq
          refine hrefs q ?_
          rw [refsOfLines_cons, hlr]
          exact hq
        exact ih _ (InvP_appendChunk fs0 common st dest line hinv hdest) hrefs'
    · rename_i hm
      have hlr : lineRef srcDir line = none := by
        simp [lineRef, hm]
      have hrefs' : ∀ q ∈ refsOfLines srcDir rest, R q ∧ DomP fs0 q ∧ h q < fuel := by
        intro q hq
        refine hrefs q ?_
        rw [refsOfLines_cons, hlr]
        exact hq
      exact ih _ (InvP_appendChunk fs0 common st dest line hinv hdest) hrefs'
theorem parseKconfig_noFuel (cfg : Cfg) (fs0 : FS) (common : FPath) (h : FPath → Nat)
    (R : FPath → Prop)
    (HR : ∀ p, R p → ∀ lines, filesLookup fs0 p = some lines →
      ∀ q ∈ refsOfLines (dirname p) lines, R q ∧ DomP fs0 q ∧ h q < h p)
    (Hsep : ∀ p q, DomP fs0 p → DomP fs0 q →
      normPath (cfg.parent_dir ++ relpath q common) ≠ normPath p) :
    ∀ (fuel : Nat) (st : St) (src : FPath), InvP fs0 common st → R src → DomP fs0 src →
      h src < fuel →
      (parseKconfig cfg fuel st src).2 ≠ .error .noFuel
      ∧ ∀ st' rel, parseKconfig cfg fuel st src = (st', .ok rel) → InvP fs0 common st' := by
  intro fuel
  induction fuel with
  | zero =>
    intro st src _ _ _ hlt
    exact absurd hlt (Nat.not_lt_zero _)
  | succ fuel ih =>
    intro st src hinv hR hdom hlt
    simp only [parseKconfig]
    split
    · rename_i e hmk
      have he := makedirs_error_shape _ _ _ hmk
      constructor
      · rw [he]
        simp
      · intro st' rel hc
        simp at hc
    · rename_i fs1 hmk
      split
      · rename_i e hrd
        constructor
        · rcases readFile_error_shape _ _ _ hrd with he | he <;> rw [he] <;> simp
        · intro st' rel hc
          simp at hc
      · rename_i lines hrd
        have hst : filesLookup st.fs src = some lines := by
          rw [← filesLookup_makedirs st.fs _ fs1 hmk src]
          exact readFile_ok fs1 src lines hrd
        have hfs0 : filesLookup fs0 src = some lines := by
          rw [← hinv.2 src hdom]
          exact hst
        split
        · rename_i e hw
          have he := openWriteTrunc_error_shape _ _ _ hw
          constructor
          · rw [he]
            simp
          · intro st' rel hc
            simp at hc
        · rename_i fs2 hw
          have hdest : ∀ p, DomP fs0 p →
              normPath (cfg.parent_dir ++ relpath src st.common_dir) ≠ normPath p := by
            rw [hinv.1]
            intro p hp
            exact Hsep p src hp hdom
          have hInvC : InvP fs0 common
              ⟨fs2, st.common_dir, st.kconfig_sources
                ++ [(src, cfg.parent_dir ++ relpath src st.common_dir)]⟩ := by
            refine ⟨hinv.1, ?_⟩
            intro p hp
            have hfs2 : fs2 = setFile fs1 (cfg.parent_dir ++ relpath src st.common_dir) [] :=
              openWriteTrunc_ok fs1 _ fs2 hw
            rw [hfs2]
            show filesLookup (setFile fs1 _ []) p = _
            rw [filesLookup_setFile, if_neg (fun hh => hdest p hp hh.symm),
              filesLookup_makedirs st.fs _ fs1 hmk p]
            exact hinv.2 p hp
          have hrefs : ∀ q ∈ refsOfLines (dirname src) lines,
              R q ∧ DomP fs0 q ∧ h q < fuel := by
            intro q hq
            obtain ⟨hr, hd, hlt2⟩ := HR src hR lines hfs0 q hq
            exact ⟨hr, hd, by omega⟩
          have hproc := processLines_noFuel cfg fuel fs0 common h R
            (cfg.parent_dir ++ relpath src st.common_dir) (dirname src)
            (fun st src hi hr hd hl => ih st src hi hr hd hl) hdest lines
            ⟨fs2, st.common_dir, st.kconfig_sources
              ++ [(src, cfg.parent_dir ++ relpath src st.common_dir)]⟩ hInvC hrefs
          split
          · rename_i a b c
            constructor
            · have hne := hproc.1
              rw [c] at hne
              exact err_ne_noFuel_transfer b hne
            · intro st' rel hc
              simp at hc
          · rename_i a b c
            constructor
            · simp
            · intro st' rel hc
              simp only [Prod.mk.injEq, Except.ok.injEq] at hc
              rw [← hc.1]
              exact hproc.2 b c
theorem foldl_appendChunk_other (root p : FPath) (hne : normPath root ≠ normPath p) :
    ∀ (hs : List String) (fs : FS),
      filesLookup (hs.foldl (fun f hh => appendChunk f root (hh ++ "\n")) fs) p
        = filesLookup fs p := by
  intro hs
  induction hs with
  | nil => intro fs; rfl
  | cons hh t ih =>
    intro fs
    simp only [List.foldl_cons]
    rw [ih _, filesLookup_appendChunk_ne _ _ _ _ (fun h2 => hne h2.symm)]
theorem importRootLoop_noFuel (cfg : Cfg) (fuel : Nat) (fs0 : FS) (common : FPath)
    (h : FPath → Nat) (R : FPath → Prop)
    (HR : ∀ p, R p → ∀ lines, filesLookup fs0 p = some lines →
      ∀ q ∈ refsOfLines (dirname p) lines, R q ∧ DomP fs0 q ∧ h q < h p)
    (Hsep : ∀ p q, DomP fs0 p → DomP fs0 q →
      normPath (cfg.parent_dir ++ relpath q common) ≠ normPath p)
    (Hroot : ∀ p, DomP fs0 p → normPath cfg.kconfig_root ≠ normPath p) :
    ∀ (sources : List FPath) (st : St), InvP fs0 common st →
      (∀ s ∈ sources, R s ∧ DomP fs0 s ∧ h s < fuel) →
      (importRootLoop cfg fuel st sources).2 ≠ .error .noFuel := by
  intro sources
  induction sources with
  | nil =>
    intro st _ _
    simp [importRootLoop]
  | cons s rest ih =>
    intro st hinv hsrc
    have hhead := hsrc s (List.mem_cons_self s rest)
    simp only [importRootLoop]
    split
    · rename_i a b c
      have hne := (parseKconfig_noFuel cfg fs0 common h R HR Hsep fuel st s hinv
        hhead.1 hhead.2.1 hhead.2.2).1
      rw [c] at hne
      exact err_ne_noFuel_transfer b hne
    · rename_i a b c
      have hInv2 := (parseKconfig_noFuel cfg fs0 common h R HR Hsep fuel st s hinv
        hhead.1 hhead.2.1 hhead.2.2).2 a b c
      exact ih _ (InvP_appendChunk fs0 common a cfg.kconfig_root _ hInv2 Hroot)
        (fun s2 hs2 => hsrc s2 (List.mem_cons_of_mem s hs2))
/-- C10: if the source-reference graph of the initial filesystem is finite and
acyclic - witnessed by a set `R` of file paths closed under the reference
edges and a measure `h` that strictly decreases along every edge - and the
output locations (the mapped destinations and the root file) do not alias any
existing file, then the depth-first recursion of Import terminates: for any
fuel bound exceeding the measure of every top-level input, the run never
exhausts its fuel (fuel exhaustion is this embedding's image of unbounded
recursion / stack exhaustion; any other error is an ordinary exception, not
nontermination). -/
theorem import_terminates_on_acyclic (cfg : Cfg) (fuel : Nat) (st : St)
    (sources : List FPath) (h : FPath → Nat) (R : FPath → Prop)
    (HR : ∀ p, R p → ∀ lines, filesLookup st.fs p = some lines →
      ∀ q ∈ refsOfLines (dirname p) lines, R q ∧ DomP st.fs q ∧ h q < h p)
    (Hsep : ∀ cd, commonpath sources = .ok cd → ∀ p q, DomP st.fs p → DomP st.fs q →
      normPath (cfg.parent_dir ++ relpath q cd) ≠ normPath p)
    (Hroot : ∀ p, DomP st.fs p → normPath cfg.kconfig_root ≠ normPath p)
    (Hsrc : ∀ s ∈ sources, R s ∧ DomP st.fs s ∧ h s < fuel) :
    (importSources cfg fuel st sources).2 ≠ .error .noFuel := by
  simp only [importSources]
  split
  · rename_i e hcd
    rw [commonpath_error_shape sources e hcd]
    simp
  · rename_i cd hcd
    split
    · rename_i e hw
      rw [openWriteTrunc_error_shape _ _ _ hw]
      simp
    · rename_i fs2 hw
      have hfs2 : fs2 = setFile st.fs cfg.kconfig_root [] :=
        openWriteTrunc_ok st.fs cfg.kconfig_root fs2 hw
      have hInv4 : InvP st.fs cd
          ⟨appendChunk
              (cfg.headers.foldl (fun f hh => appendChunk f cfg.kconfig_root (hh ++ "\n")) fs2)
              cfg.kconfig_root ("mainmenu \"" ++ cfg.title ++ " Configuration\"\n"),
            cd, st.kconfig_sources⟩ := by
        refine ⟨rfl, ?_⟩
        intro p hp
        have hne := Hroot p hp
        show filesLookup (appendChunk _ cfg.kconfig_root _) p = filesLookup st.fs p
        rw [filesLookup_appendChunk_ne _ _ _ _ (fun hh => hne hh.symm),
          foldl_appendChunk_other cfg.kconfig_root p hne cfg.headers fs2, hfs2,
          filesLookup_setFile, if_neg (fun hh => hne hh.symm)]
      exact importRootLoop_noFuel cfg fuel st.fs cd h R HR (Hsep cd hcd) Hroot
        sources _ hInv4 Hsrc
theorem filesLookup_pair_cases (a b : FPath) (ca cb : List String) (ds : List FPath)
    (p : FPath) (lines : List String)
    (hp : filesLookup ⟨[(a, ca), (b, cb)], ds⟩ p = some lines) :
    (normPath p = a ∧ lines = ca) ∨ (normPath p = b ∧ lines = cb) := by
  simp only [filesLookup, List.find?] at hp
  split at hp
  · rename_i h1
    refine Or.inl ⟨?_, ?_⟩
    · exact (of_decide_eq_true h1).symm
    · simpa using hp.symm
  · split at hp
    · rename_i h2
      refine Or.inr ⟨?_, ?_⟩
      · exact (of_decide_eq_true h2).symm
      · simpa using hp.symm
    · simp at hp
theorem domP_pair_cases (a b : FPath) (ca cb : List String) (ds : List FPath)
    (p : FPath) (hp : DomP ⟨[(a, ca), (b, cb)], ds⟩ p) :
    normPath p = a ∨ normPath p = b := by
  rw [DomP, Option.isSome_iff_exists] at hp
  obtain ⟨lines, hl⟩ := hp
  rcases filesLookup_pair_cases a b ca cb ds p lines hl with ⟨h, _⟩ | ⟨h, _⟩
  · exact Or.inl h
  · exact Or.inr h
theorem relpath_norm (q b n : FPath) (hq : normPath q = n) :
    relpath q b
      = List.replicate ((normPath b).length - commonPrefixLen n (normPath b)) ".."
        ++ n.drop (commonPrefixLen n (normPath b)) := by
  simp only [relpath, hq]
theorem import_terminates_on_acyclic_witness :
    (importSources cfgC3 3 ⟨fsC10, [], []⟩ [["a", "x.k"], ["a", "y.k"]]).2
      ≠ .error .noFuel :=
  import_terminates_on_acyclic cfgC3 3 ⟨fsC10, [], []⟩ [["a", "x.k"], ["a", "y.k"]]
    (fun p => if p = ["a", "x.k"] then 1 else 0)
    (fun p => p = ["a", "x.k"] ∨ p = ["a", "y.k"])
    (by
      intro p hR lines hl q hq
      rcases hR with hpx | hpy
      · subst hpx
        have h2 : (some ["source \"y.k\"\n"] : Option (List String)) = some lines := hl
        have hlines : lines = ["source \"y.k\"\n"] := by
          injection h2 with h3
          exact h3.symm
        subst hlines
        have hrefs : refsOfLines (dirname ["a", "x.k"]) ["source \"y.k\"\n"]
            = [["a", "y.k"]] := rfl
        rw [hrefs] at hq
        have hq2 : q = ["a", "y.k"] := by simpa using hq
        subst hq2
        exact ⟨Or.inr rfl, rfl, by decide⟩
      · subst hpy
        have h2 : (some ["config Y\n"] : Option (List String)) = some lines := hl
        have hlines : lines = ["config Y\n"] := by
          injection h2 with h3
          exact h3.symm
        subst hlines
        have hrefs : refsOfLines (dirname ["a", "y.k"]) ["config Y\n"] = [] := rfl
        rw [hrefs] at hq
        exact absurd hq (List.not_mem_nil q))
    (by
      intro cd hcd p q hp hq
      have hcd2 : (Except.ok ["a"] : Except Err FPath) = Except.ok cd := hcd
      have hcd3 : cd = ["a"] := by
        injection hcd2 with h3
        exact h3.symm
      subst hcd3
      rcases domP_pair_cases _ _ _ _ _ p hp with hp2 | hp2 <;>
        rcases domP_pair_cases _ _ _ _ _ q hq with hq2 | hq2 <;>
        · rw [relpath_norm q ["a"] _ hq2, hp2]
          decide)
    (by
      intro p hp
      rcases domP_pair_cases _ _ _ _ _ p hp with hp2 | hp2 <;>
        · rw [hp2]
          decide)
    (by
      intro s hs
      rcases List.mem_cons.mp hs with h | h
      · subst h
        exact ⟨Or.inl rfl, rfl, by decide⟩
      · have h2 : s = ["a", "y.k"] := by simpa using h
        subst h2
        exact ⟨Or.inr rfl, rfl, by decide⟩)
